import Mathlib

/-!
Verification of the Math-Expression-Formatter core
(`src/utils/mathProcessor.ts` and the inlined copy in the app component).

The rewriter is a fixed sequence of JavaScript global-regex substitutions
over strings.  We embed strings as `List Char` (all characters involved are
BMP scalar values, so JS UTF-16 code units and Lean characters coincide) and
each `String.prototype.replace(regex, repl)` call as a left-to-right,
leftmost, non-overlapping global replacement driven by a per-position
matcher.  The matchers encode the concrete regexes of the source; for each
of them the greedy quantifiers are deterministic (no backtracking can
succeed where the greedy parse fails), which is noted where it matters.
Character classes are codepoint ranges, so the class predicates are stated
on `Char.toNat`.
-/

set_option maxRecDepth 100000

namespace MathFmt

/-- ASCII letter, the class `[A-Za-z]` of the source regexes. -/
def isAsciiLetter (c : Char) : Bool :=
  (65 ≤ c.toNat && c.toNat ≤ 90) || (97 ≤ c.toNat && c.toNat ≤ 122)

/-- ASCII digit, the `0-9` part of the source character classes. -/
def isDigitCh (c : Char) : Bool :=
  48 ≤ c.toNat && c.toNat ≤ 57

/-- The class `[A-Za-z0-9]` of the subscript/superscript/fraction regexes. -/
def isAlnumCh (c : Char) : Bool :=
  isAsciiLetter c || isDigitCh c

/-- JS regex word character `\w = [A-Za-z0-9_]`, the basis of `\b`. -/
def isWordChar (c : Char) : Bool :=
  isAlnumCh c || c = '_'

/-- JS regex whitespace class `\s` (the WhiteSpace and LineTerminator sets). -/
def isJsSpace (c : Char) : Bool :=
  c.toNat = 32 || c.toNat = 9 || c.toNat = 10 || c.toNat = 11 || c.toNat = 12 ||
  c.toNat = 13 || c.toNat = 0xA0 || c.toNat = 0x1680 ||
  (0x2000 ≤ c.toNat && c.toNat ≤ 0x200A) ||
  c.toNat = 0x2028 || c.toNat = 0x2029 || c.toNat = 0x202F ||
  c.toNat = 0x205F || c.toNat = 0x3000 || c.toNat = 0xFEFF

/-- JS line terminators, the characters NOT matched by `.` (no `s` flag). -/
def isLineTerm (c : Char) : Bool :=
  c.toNat = 10 || c.toNat = 13 || c.toNat = 0x2028 || c.toNat = 0x2029

/-- Canonical codepoint used by case-insensitive (`i` flag, no `u` flag) JS
regex matching: a text character matches a pattern character iff their
canonical values agree.  Canonicalize maps a character through
`toUpperCase` unless that would turn a non-ASCII character into an ASCII
one.  We implement it on the alphabet relevant to this program: ASCII
lowercase letters, the Greek lowercase block (with final sigma `ς ↦ Σ`)
and the micro sign `µ ↦ Μ`; every other character (ASCII uppercase,
digits, operators, the uppercase Greek block, `∇`, `ħ`, …) is fixed. -/
def canonN (c : Char) : Nat :=
  if 97 ≤ c.toNat && c.toNat ≤ 122 then c.toNat - 32
  else if c.toNat = 0x3C2 then 0x3A3
  else if 0x3B1 ≤ c.toNat && c.toNat ≤ 0x3C9 then c.toNat - 32
  else if c.toNat = 0xB5 then 0x39C
  else c.toNat

/-- One step of JS `String.prototype.replace` with a `g`-flagged regex,
for regexes without word boundaries: `tr` receives the current suffix
and returns `some (replacementText, rest)` when the regex matches at that
position (consuming at least one character), `none` otherwise.  On a match
the replacement is emitted and scanning resumes after the match; otherwise
one character is copied and scanning advances by one position — exactly the
observable behaviour of a global regex replace.  `fuel` bounds the number
of scanning steps; every caller passes the length of the list, which
suffices because every step consumes at least one character. -/
def replaceG (tr : List Char → Option (List Char × List Char)) :
    Nat → List Char → List Char
  | 0, s => s
  | _ + 1, [] => []
  | fuel + 1, c :: rest =>
    match tr (c :: rest) with
    | some (out, r) => out ++ replaceG tr fuel r
    | none => c :: replaceG tr fuel rest

/-- Global replace for regexes with word boundaries: the matcher also
receives the previous character of the ORIGINAL text (JS evaluates `\b`
against the input string, replacements never affect later boundary tests,
and the scan position only moves forward), and reports the last character
it consumed so the boundary state can be threaded. -/
def replaceGB
    (tr : Option Char → List Char → Option (List Char × List Char × Option Char)) :
    Nat → Option Char → List Char → List Char
  | 0, _, s => s
  | _ + 1, _, [] => []
  | fuel + 1, prev, c :: rest =>
    match tr prev (c :: rest) with
    | some (out, r, last) => out ++ replaceGB tr fuel last r
    | none => c :: replaceGB tr fuel (some c) rest

/-- Run a prev-free global replacement over a whole string. -/
def applyG (tr : List Char → Option (List Char × List Char)) (s : List Char) :
    List Char :=
  replaceG tr s.length s

/-- Matcher of pass 1, `/([A-Za-z])_([A-Za-z0-9]+)/g → '$1_{$2}'`:
a single Latin letter, an underscore, then a greedy nonempty alphanumeric
run (greedy is exact: nothing follows the run in the pattern). -/
def subM : List Char → Option (List Char × List Char)
  | c :: d :: r2 =>
    if isAsciiLetter c && d = '_' && !(r2.takeWhile isAlnumCh).isEmpty then
      some ([c, '_', '{'] ++ r2.takeWhile isAlnumCh ++ ['}'], r2.dropWhile isAlnumCh)
    else none
  | _ => none

/-- Matcher of pass 2, `/([A-Za-z0-9])(\^)([A-Za-z0-9]+)/g → '$1^{$3}'`. -/
def supM : List Char → Option (List Char × List Char)
  | c :: d :: r2 =>
    if isAlnumCh c && d = '^' && !(r2.takeWhile isAlnumCh).isEmpty then
      some ([c, '^', '{'] ++ r2.takeWhile isAlnumCh ++ ['}'], r2.dropWhile isAlnumCh)
    else none
  | _ => none

/-- Matcher of pass 3, `/([A-Za-z0-9]+)\/([A-Za-z0-9]+)/g → '\frac{$1}{$2}'`.
At a given start position the first greedy group can only be the maximal
alphanumeric run from that position: shortening it would leave an
alphanumeric character where `\/` must match, so no backtracking succeeds. -/
def fracM : List Char → Option (List Char × List Char)
  | c :: rest =>
    if isAlnumCh c && (rest.dropWhile isAlnumCh).head? = some '/' &&
       !(((rest.dropWhile isAlnumCh).tail).takeWhile isAlnumCh).isEmpty then
      some (['\\', 'f', 'r', 'a', 'c', '{'] ++ (c :: rest.takeWhile isAlnumCh) ++
            ['}', '{'] ++ ((rest.dropWhile isAlnumCh).tail).takeWhile isAlnumCh ++ ['}'],
            ((rest.dropWhile isAlnumCh).tail).dropWhile isAlnumCh)
    else none
  | [] => none

/-- Case-insensitive literal match of `name` at the front of the text,
returning the rest and the last ORIGINAL character consumed. -/
def stripName : List Char → Option Char → List Char → Option (List Char × Option Char)
  | [], last, s => some (s, last)
  | _ :: _, _, [] => none
  | p :: ps, _, c :: cs => if canonN c = canonN p then stripName ps (some c) cs else none

/-- The `\b<name>\b` alternative of a Greek-table regex
`new RegExp('\\b' + name + '\\b|' + symbol, 'gi')`.  Every table name
begins and ends with an ASCII letter (a word character), so the leading
boundary holds iff the previous character is absent or not a word
character, and the trailing boundary iff the next one is absent or not a
word character. -/
def nameAlt (name : List Char) (prev : Option Char) (s : List Char) :
    Option (List Char × List Char × Option Char) :=
  if prev.elim false isWordChar then none
  else
    (stripName name none s).bind (fun rl =>
      if rl.1.head?.elim false isWordChar then none
      else some ('\\' :: name, rl.1, rl.2))

/-- The glyph alternative `|symbol` of a Greek-table regex: no boundary,
case-insensitive single character. -/
def glyphAlt (name : List Char) (glyph : Char) (s : List Char) :
    Option (List Char × List Char × Option Char) :=
  match s with
  | c :: rest => if canonN c = canonN glyph then some ('\\' :: name, rest, some c) else none
  | [] => none

/-- Matcher of one Greek-table entry: the name alternative is tried first
(JS alternation is ordered), then the glyph alternative; both replace the
match with `'\' + name`. -/
def greekM (name : List Char) (glyph : Char) (prev : Option Char) (s : List Char) :
    Option (List Char × List Char × Option Char) :=
  match nameAlt name prev s with
  | some m => some m
  | none => glyphAlt name glyph s

/-- One `processed.replace(regex, '\\' + name)` call of the Greek loop. -/
def entryPass (name : List Char) (glyph : Char) (s : List Char) : List Char :=
  replaceGB (greekM name glyph) s.length none s

/-- The `greekLetters` table, in its source (insertion) order. -/
def greekLetters : List (List Char × Char) :=
  [("alpha".data, 'α'), ("beta".data, 'β'), ("gamma".data, 'γ'),
   ("delta".data, 'δ'), ("epsilon".data, 'ε'), ("zeta".data, 'ζ'),
   ("eta".data, 'η'), ("theta".data, 'θ'), ("iota".data, 'ι'),
   ("kappa".data, 'κ'), ("lambda".data, 'λ'), ("mu".data, 'μ'),
   ("nu".data, 'ν'), ("xi".data, 'ξ'), ("omicron".data, 'ο'),
   ("pi".data, 'π'), ("rho".data, 'ρ'), ("sigma".data, 'σ'),
   ("tau".data, 'τ'), ("upsilon".data, 'υ'), ("phi".data, 'φ'),
   ("chi".data, 'χ'), ("psi".data, 'ψ'), ("omega".data, 'ω')]

/-- Pass 1: subscripts. -/
def subPass (s : List Char) : List Char := applyG subM s

/-- Pass 2: superscripts. -/
def supPass (s : List Char) : List Char := applyG supM s

/-- Pass 3: fractions. -/
def fracPass (s : List Char) : List Char := applyG fracM s

/-- Pass 4: the `Object.entries(greekLetters).forEach` loop. -/
def greekPass (s : List Char) : List Char :=
  greekLetters.foldl (fun acc e => entryPass e.1 e.2 acc) s

/-- The trailing part `\s*_?{?μν}?` shared by three Einstein regexes.
All quantifiers are deterministic here: no whitespace character is `_`,
`{` or `μ`, and `_`/`{` differ from each other and from `μ`, so the greedy
parse is the only possible one. -/
def einTailMN (s : List Char) : Option (List Char) :=
  match
    (match
      (match s.dropWhile isJsSpace with
       | '_' :: r => r
       | s1 => s1) with
     | '{' :: r => r
     | s2 => s2) with
  | 'μ' :: 'ν' :: '}' :: r => some r
  | 'μ' :: 'ν' :: r => some r
  | _ => none

/-- `/G\s*_?{?μν}?/g → 'G_{\mu\nu}'`. -/
def einM1 : List Char → Option (List Char × List Char)
  | 'G' :: rest => (einTailMN rest).map (fun r => ("G_\x7b\\mu\\nu\x7d".data, r))
  | _ => none

/-- `/Λg\s*_?{?μν}?/g → '\Lambda g_{\mu\nu}'`. -/
def einM2 : List Char → Option (List Char × List Char)
  | 'Λ' :: 'g' :: rest => (einTailMN rest).map (fun r => ("\\Lambda g_\x7b\\mu\\nu\x7d".data, r))
  | _ => none

/-- `/T\s*_?{?μν}?/g → 'T_{\mu\nu}'`. -/
def einM3 : List Char → Option (List Char × List Char)
  | 'T' :: rest => (einTailMN rest).map (fun r => ("T_\x7b\\mu\\nu\x7d".data, r))
  | _ => none

/-- `/c\s*\^?{?4}?/g → 'c^{4}'` (the `4` is required, `^`, `{`, `}` are
optional; again the greedy parse is deterministic). -/
def einM4 : List Char → Option (List Char × List Char)
  | 'c' :: rest =>
    match
      (match
        (match rest.dropWhile isJsSpace with
         | '^' :: r => r
         | s1 => s1) with
       | '{' :: r => r
       | s2 => s2) with
    | '4' :: '}' :: r => some ("c^{4}".data, r)
    | '4' :: r => some ("c^{4}".data, r)
    | _ => none
  | _ => none

/-- `/8πG/g → '8\pi G'`. -/
def einM5 : List Char → Option (List Char × List Char)
  | '8' :: 'π' :: 'G' :: rest => some ("8\\pi G".data, rest)
  | _ => none

/-- The five Einstein substitutions, in source order. -/
def einsteinBlock (s : List Char) : List Char :=
  applyG einM5 (applyG einM4 (applyG einM3 (applyG einM2 (applyG einM1 s))))

/-- `/iħ/g → 'i\hbar'`. -/
def schM1 : List Char → Option (List Char × List Char)
  | 'i' :: 'ħ' :: rest => some ("i\\hbar".data, rest)
  | _ => none

/-- `/∂Ψ\/∂t/g → '\frac{\partial\Psi}{\partial t}'`. -/
def schM2 : List Char → Option (List Char × List Char)
  | '∂' :: 'Ψ' :: '/' :: '∂' :: 't' :: rest =>
    some ("\\frac\x7b\\partial\\Psi\x7d\x7b\\partial t\x7d".data, rest)
  | _ => none

/-- `/∇\^2/g → '\nabla^{2}'`. -/
def schM3 : List Char → Option (List Char × List Char)
  | '∇' :: '^' :: '2' :: rest => some ("\\nabla^{2}".data, rest)
  | _ => none

/-- The three Schrödinger substitutions, in source order. -/
def schrodingerBlock (s : List Char) : List Char :=
  applyG schM3 (applyG schM2 (applyG schM1 s))

/-- Matcher of a Maxwell pattern `/∇\s*<sym>\s*<tgt>/g` (sym is `.` or `×`,
tgt is `E` or `B`; whitespace is never `.`, `×`, `E` or `B`, so greedy
`\s*` is deterministic). -/
def maxM (sym tgt : Char) (out : List Char) : List Char → Option (List Char × List Char)
  | '∇' :: rest =>
    match rest.dropWhile isJsSpace with
    | c1 :: r1 =>
      if c1 = sym then
        match r1.dropWhile isJsSpace with
        | c2 :: r2 => if c2 = tgt then some (out, r2) else none
        | [] => none
      else none
    | [] => none
  | _ => none

/-- The four Maxwell substitutions, in source order. -/
def maxwellBlock (s : List Char) : List Char :=
  applyG (maxM '×' 'B' "\\nabla \\times \\vec{B}".data)
    (applyG (maxM '×' 'E' "\\nabla \\times \\vec{E}".data)
      (applyG (maxM '.' 'B' "\\nabla \\cdot \\vec{B}".data)
        (applyG (maxM '.' 'E' "\\nabla \\cdot \\vec{E}".data) s)))

/-- `haystack.includes(needle)`: substring containment. -/
def containsSeq (pat : List Char) : List Char → Bool
  | [] => pat.isEmpty
  | c :: rest => pat.isPrefixOf (c :: rest) || containsSeq pat rest

/-- Einstein guard: `processed.includes('G') && processed.includes('μν') &&
processed.includes('Λ')`. -/
def einGuard (s : List Char) : Bool :=
  s.contains 'G' && containsSeq ['μ', 'ν'] s && s.contains 'Λ'

/-- Schrödinger guard: `processed.includes('Ψ') && processed.includes('ħ')`. -/
def schGuard (s : List Char) : Bool :=
  s.contains 'Ψ' && s.contains 'ħ'

/-- Maxwell guard: `processed.includes('∇') && (processed.includes('E') ||
processed.includes('B'))`. -/
def maxGuard (s : List Char) : Bool :=
  s.contains '∇' && (s.contains 'E' || s.contains 'B')

/-- Passes 1–4 of both rewriters (identical code in both source files). -/
def corePasses (s : List Char) : List Char :=
  greekPass (fracPass (supPass (subPass s)))

/-- The guarded Einstein block. -/
def einStep (s : List Char) : List Char :=
  if einGuard s then einsteinBlock s else s

/-- The guarded Schrödinger block. -/
def schStep (s : List Char) : List Char :=
  if schGuard s then schrodingerBlock s else s

/-- The guarded Maxwell block. -/
def maxStep (s : List Char) : List Char :=
  if maxGuard s then maxwellBlock s else s

/-- `processToLatex` of `src/utils/mathProcessor.ts` (the spec's
`rewriteToLatex`): passes 1–4, then the three guarded equation blocks. -/
def processToLatex (s : List Char) : List Char :=
  maxStep (schStep (einStep (corePasses s)))

/-- `processInput` of the app component: the inlined copy of the same
passes 1–4 and the Einstein block, with no Schrödinger or Maxwell block. -/
def processInput (s : List Char) : List Char :=
  einStep (corePasses s)

/-- Does a prev-free matcher match at any position?  This is
`regex.test(input)` for the corresponding regex. -/
def anyMatch (tr : List Char → Option (List Char × List Char)) : List Char → Bool
  | [] => false
  | c :: rest => (tr (c :: rest)).isSome || anyMatch tr rest

/-- A token of one of the detector's `.*`-separated chain regexes:
either a literal run or a one-character class. -/
inductive RTok where
  | lit : List Char → RTok
  | cls : List Char → RTok

/-- Case-sensitive literal match at the front of the text. -/
def stripLit : List Char → List Char → Option (List Char)
  | [], s => some s
  | _ :: _, [] => none
  | p :: ps, c :: cs => if c = p then stripLit ps cs else none

/-- Match one token at the front of the text. -/
def stripTok : RTok → List Char → Option (List Char)
  | .lit l, s => stripLit l s
  | .cls cs, c :: rest => if cs.contains c then some rest else none
  | .cls _, [] => none

/-- Does `.*tok₁.*tok₂…` match here?  The `.` of a flagless JS regex
matches everything except line terminators, so each gap (including the one
before the first remaining token) may skip only non-line-terminator
characters.  `fuel` bounds the search; `tokens.length + s.length` always
suffices since every step shrinks that sum. -/
def chainGapF : Nat → List RTok → List Char → Bool
  | _, [], _ => true
  | 0, _ :: _, _ => false
  | fuel + 1, t :: ts, s =>
    match s with
    | [] => false
    | c :: rest =>
      (match stripTok t (c :: rest) with
       | some r => chainGapF fuel ts r
       | none => false) ||
      (!isLineTerm c && chainGapF fuel (t :: ts) rest)

/-- Does `tok₁.*tok₂…` match exactly at this position? -/
def matchHead (toks : List RTok) (s : List Char) : Bool :=
  match toks with
  | [] => true
  | t :: ts =>
    match stripTok t s with
    | some r => chainGapF (ts.length + r.length) ts r
    | none => false

/-- `regex.test`: does `tok₁.*tok₂…` match at some position? -/
def chainAny (toks : List RTok) : List Char → Bool
  | [] => matchHead toks []
  | c :: rest => matchHead toks (c :: rest) || chainAny toks rest

/-- Tokens of `/G.*μν.*Λ.*g.*μν.*T.*μν/g`. -/
def einsteinToks : List RTok :=
  [.lit ['G'], .lit ['μ', 'ν'], .lit ['Λ'], .lit ['g'], .lit ['μ', 'ν'],
   .lit ['T'], .lit ['μ', 'ν']]

/-- Tokens of `/[Ψψ].*[ħh].*∇\^2/g`. -/
def schrodToks : List RTok :=
  [.cls ['Ψ', 'ψ'], .cls ['ħ', 'h'], .lit ['∇', '^', '2']]

/-- Tokens of `/∇.*[EB].*∇.*[EB]/g`. -/
def maxwellToks : List RTok :=
  [.lit ['∇'], .cls ['E', 'B'], .lit ['∇'], .cls ['E', 'B']]

/-- The record returned by `detectPatterns`. -/
structure Patterns where
  hasSubscripts : Bool
  hasSuperscripts : Bool
  hasFractions : Bool
  hasGreekLetters : Bool
  isEinsteinEquation : Bool
  isSchrodingerEquation : Bool
  isMaxwellEquation : Bool
  deriving Repr, DecidableEq

/-- `detectPatterns` of `src/utils/mathProcessor.ts`: seven independent
containment/regex tests on the raw input.  `hasGreekLetters` is the
flagless `/[α-ωΑ-Ω]/` character-range test. -/
def detectPatterns (s : List Char) : Patterns :=
  { hasSubscripts := anyMatch subM s
    hasSuperscripts := anyMatch supM s
    hasFractions := anyMatch fracM s
    hasGreekLetters :=
      s.any (fun c => (0x3B1 ≤ c.toNat && c.toNat ≤ 0x3C9) ||
        (0x391 ≤ c.toNat && c.toNat ≤ 0x3A9))
    isEinsteinEquation := chainAny einsteinToks s
    isSchrodingerEquation := chainAny schrodToks s
    isMaxwellEquation := chainAny maxwellToks s }

/-- Case-insensitive prefix test against a pattern given as literal
characters (compared through `canonN`, as the `i` flag does). -/
def ciPrefix : List Char → List Char → Bool
  | [], _ => true
  | _ :: _, [] => false
  | p :: ps, c :: cs => canonN c = canonN p && ciPrefix ps cs

/-- Case-insensitive substring containment. -/
def containsCI (pat : List Char) : List Char → Bool
  | [] => pat.isEmpty
  | c :: rest => ciPrefix pat (c :: rest) || containsCI pat rest

/-!  ## General lemmas about the Greek pass

The key structural fact behind several claims: once an entry's glyph has
been processed, no character whose canonical form equals that glyph's can
remain (every occurrence is replaced by the ASCII text `\name`), and later
entries only ever insert ASCII text, so such characters never reappear. -/

lemma stripName_spec :
    ∀ (name : List Char) (last : Option Char) (s r : List Char) (lc : Option Char),
      stripName name last s = some (r, lc) → r.length + name.length = s.length ∧ r <:+ s := by
  intro name
  induction name with
  | nil =>
    intro last s r lc h
    simp only [stripName, Option.some.injEq, Prod.mk.injEq] at h
    obtain ⟨h1, _⟩ := h
    subst h1
    exact ⟨by simp, List.suffix_refl _⟩
  | cons p ps ih =>
    intro last s r lc h
    cases s with
    | nil => simp [stripName] at h
    | cons c cs =>
      simp only [stripName] at h
      split at h
      · obtain ⟨h1, h2⟩ := ih (some c) cs r lc h
        constructor
        · simp only [List.length_cons]
          omega
        · exact h2.trans (List.suffix_cons c cs)
      · exact absurd h (by simp)

lemma nameAlt_some {n : List Char} {prev : Option Char} {s out r : List Char}
    {lc : Option Char} (h : nameAlt n prev s = some (out, r, lc)) :
    out = '\\' :: n ∧ r.length + n.length = s.length ∧ r <:+ s := by
  unfold nameAlt at h
  split at h
  · exact absurd h (by simp)
  · rcases hsn : stripName n none s with _ | ⟨r2, lc2⟩
    · rw [hsn] at h; exact absurd h (by simp)
    · rw [hsn] at h
      simp only [Option.some_bind] at h
      split at h
      · exact absurd h (by simp)
      · simp only [Option.some.injEq, Prod.mk.injEq] at h
        obtain ⟨h1, h2, _⟩ := h
        obtain ⟨hlen, hsuf⟩ := stripName_spec n none s r2 lc2 hsn
        exact ⟨h1.symm, h2 ▸ hlen, h2 ▸ hsuf⟩

lemma glyphAlt_some {n : List Char} {g : Char} {s out r : List Char} {lc : Option Char}
    (h : glyphAlt n g s = some (out, r, lc)) :
    out = '\\' :: n ∧ r.length < s.length ∧ r <:+ s := by
  unfold glyphAlt at h
  cases s with
  | nil => exact absurd h (by simp)
  | cons c cs =>
    simp only at h
    split at h
    · simp only [Option.some.injEq, Prod.mk.injEq] at h
      obtain ⟨h1, h2, _⟩ := h
      refine ⟨h1.symm, ?_, ?_⟩
      · rw [← h2]; simp
      · rw [← h2]; exact List.suffix_cons c cs
    · exact absurd h (by simp)

lemma greekM_some {n : List Char} {g : Char} {prev : Option Char} {s out r : List Char}
    {lc : Option Char} (hn : n ≠ []) (h : greekM n g prev s = some (out, r, lc)) :
    out = '\\' :: n ∧ r.length < s.length ∧ r <:+ s := by
  unfold greekM at h
  cases hna : nameAlt n prev s with
  | some m =>
    rw [hna] at h
    injection h with h
    subst h
    obtain ⟨h1, h2, h3⟩ := nameAlt_some hna
    have hlen : 1 ≤ n.length := List.length_pos.mpr hn
    exact ⟨h1, by omega, h3⟩
  | none =>
    rw [hna] at h
    exact glyphAlt_some h

lemma greekM_none_glyph {n : List Char} {g : Char} {prev : Option Char} {c : Char}
    {rest : List Char} (h : greekM n g prev (c :: rest) = none) : canonN c ≠ canonN g := by
  unfold greekM at h
  cases hna : nameAlt n prev (c :: rest) with
  | some m => rw [hna] at h; exact absurd h (by simp)
  | none =>
    rw [hna] at h
    unfold glyphAlt at h
    simp only at h
    split at h
    · exact absurd h (by simp)
    · assumption

lemma mem_replaceGB_greekM {n : List Char} {g x : Char} (hn : n ≠ []) :
    ∀ (fuel : Nat) (prev : Option Char) (s : List Char), s.length ≤ fuel →
      x ∈ replaceGB (greekM n g) fuel prev s →
      (x ∈ s ∧ canonN x ≠ canonN g) ∨ x = '\\' ∨ x ∈ n := by
  intro fuel
  induction fuel with
  | zero =>
    intro prev s hf hx
    rw [List.length_eq_zero.mp (Nat.le_zero.mp hf)] at hx
    simp [replaceGB] at hx
  | succ fuel ih =>
    intro prev s hf hx
    cases s with
    | nil => simp [replaceGB] at hx
    | cons c rest =>
      rw [replaceGB] at hx
      cases hg : greekM n g prev (c :: rest) with
      | some m =>
        obtain ⟨out, r, lc⟩ := m
        rw [hg] at hx
        simp only at hx
        obtain ⟨ho, hlt, hsuf⟩ := greekM_some hn hg
        rcases List.mem_append.mp hx with h1 | h2
        · rw [ho] at h1
          rcases List.mem_cons.mp h1 with h | h
          · exact Or.inr (Or.inl h)
          · exact Or.inr (Or.inr h)
        · have hf' : r.length ≤ fuel := by
            simp only [List.length_cons] at hlt hf
            omega
          rcases ih lc r hf' h2 with ⟨hm, hcn⟩ | h
          · exact Or.inl ⟨hsuf.subset hm, hcn⟩
          · exact Or.inr h
      | none =>
        rw [hg] at hx
        simp only at hx
        rcases List.mem_cons.mp hx with h | h
        · subst h
          exact Or.inl ⟨List.mem_cons_self x rest, greekM_none_glyph hg⟩
        · have hf' : rest.length ≤ fuel := by
            simp only [List.length_cons] at hf
            omega
          rcases ih (some c) rest hf' h with ⟨hm, hcn⟩ | hr
          · exact Or.inl ⟨List.mem_cons_of_mem c hm, hcn⟩
          · exact Or.inr hr

lemma not_mem_entryPass_kill {n : List Char} {g x : Char} (hn : n ≠ [])
    (hx : canonN x = canonN g) (h1 : x ≠ '\\') (h2 : x ∉ n) (s : List Char) :
    x ∉ entryPass n g s := by
  intro hmem
  rcases mem_replaceGB_greekM hn s.length none s le_rfl hmem with ⟨_, hcn⟩ | h | h
  · exact hcn hx
  · exact h1 h
  · exact h2 h

lemma not_mem_entryPass_preserve {n : List Char} {g x : Char} (hn : n ≠ [])
    (h1 : x ≠ '\\') (h2 : x ∉ n) {s : List Char} (hs : x ∉ s) :
    x ∉ entryPass n g s := by
  intro hmem
  rcases mem_replaceGB_greekM hn s.length none s le_rfl hmem with ⟨hm, _⟩ | h | h
  · exact hs hm
  · exact h1 h
  · exact h2 h

/-- The fold underlying `greekPass`, over an arbitrary entry list. -/
def entryFold (entries : List (List Char × Char)) (u : List Char) : List Char :=
  entries.foldl (fun acc e => entryPass e.1 e.2 acc) u

lemma greekPass_eq_entryFold (s : List Char) : greekPass s = entryFold greekLetters s := rfl

lemma not_mem_entryFold_preserve {x : Char} :
    ∀ (entries : List (List Char × Char)),
      (∀ e ∈ entries, e.1 ≠ [] ∧ x ∉ e.1) → x ≠ '\\' →
      ∀ u, x ∉ u → x ∉ entryFold entries u := by
  intro entries
  induction entries with
  | nil => intro _ _ u hu; simpa [entryFold] using hu
  | cons f tail ih =>
    intro hok hbs u hu
    have hf := hok f (List.mem_cons_self f tail)
    have step : x ∉ entryPass f.1 f.2 u :=
      not_mem_entryPass_preserve hf.1 hbs hf.2 hu
    have := ih (fun e he => hok e (List.mem_cons_of_mem f he)) hbs (entryPass f.1 f.2 u) step
    simpa [entryFold] using this

lemma not_mem_entryFold_kill {x : Char} {e : List Char × Char} :
    ∀ (entries : List (List Char × Char)), e ∈ entries → canonN x = canonN e.2 →
      (∀ e' ∈ entries, e'.1 ≠ [] ∧ x ∉ e'.1) → x ≠ '\\' →
      ∀ u, x ∉ entryFold entries u := by
  intro entries
  induction entries with
  | nil => intro he; exact absurd he (List.not_mem_nil e)
  | cons f tail ih =>
    intro he hcn hok hbs u
    have hf := hok f (List.mem_cons_self f tail)
    rcases List.mem_cons.mp he with rfl | he'
    · have step : x ∉ entryPass e.1 e.2 u :=
        not_mem_entryPass_kill hf.1 hcn hbs hf.2 u
      have := not_mem_entryFold_preserve tail
        (fun e' h' => hok e' (List.mem_cons_of_mem e h')) hbs _ step
      simpa [entryFold] using this
    · have := ih he' hcn (fun e' h' => hok e' (List.mem_cons_of_mem f h')) hbs
        (entryPass f.1 f.2 u)
      simpa [entryFold] using this

lemma not_mem_greekPass_mu (s : List Char) : 'μ' ∉ greekPass s := by
  rw [greekPass_eq_entryFold]
  exact not_mem_entryFold_kill greekLetters (e := ("mu".data, 'μ')) (by decide) (by decide)
    (by decide) (by decide) s

lemma not_mem_greekPass_lambda (s : List Char) : 'Λ' ∉ greekPass s := by
  rw [greekPass_eq_entryFold]
  exact not_mem_entryFold_kill greekLetters (e := ("lambda".data, 'λ')) (by decide) (by decide)
    (by decide) (by decide) s

lemma not_mem_greekPass_psi (s : List Char) : 'Ψ' ∉ greekPass s := by
  rw [greekPass_eq_entryFold]
  exact not_mem_entryFold_kill greekLetters (e := ("psi".data, 'ψ')) (by decide) (by decide)
    (by decide) (by decide) s

lemma containsSeq_subset {pat : List Char} :
    ∀ {l : List Char}, containsSeq pat l = true → ∀ x ∈ pat, x ∈ l := by
  intro l
  induction l with
  | nil =>
    intro h x hx
    cases pat with
    | nil => exact absurd hx (List.not_mem_nil x)
    | cons p ps => simp [containsSeq] at h
  | cons c rest ih =>
    intro h x hx
    rcases (by simpa [containsSeq] using h :
        pat <+: c :: rest ∨ containsSeq pat rest = true) with h1 | h2
    · exact h1.subset hx
    · exact List.mem_cons_of_mem c (ih h2 x hx)

lemma contains_eq_false_of_not_mem {x : Char} {l : List Char} (h : x ∉ l) :
    l.contains x = false := by
  rw [Bool.eq_false_iff]
  intro hc
  exact h (List.elem_iff.mp hc)

lemma einGuard_corePasses (s : List Char) : einGuard (corePasses s) = false := by
  have hμ := not_mem_greekPass_mu (fracPass (supPass (subPass s)))
  have : containsSeq ['μ', 'ν'] (corePasses s) = false := by
    rw [Bool.eq_false_iff]
    intro hc
    exact hμ (containsSeq_subset hc 'μ' (by decide))
  simp [einGuard, this]

lemma schGuard_corePasses (s : List Char) : schGuard (corePasses s) = false := by
  have hΨ : (corePasses s).contains 'Ψ' = false :=
    contains_eq_false_of_not_mem (not_mem_greekPass_psi (fracPass (supPass (subPass s))))
  unfold schGuard
  rw [hΨ]
  rfl

lemma einStep_corePasses (s : List Char) : einStep (corePasses s) = corePasses s := by
  unfold einStep
  rw [einGuard_corePasses]
  simp

lemma schStep_corePasses (s : List Char) : schStep (corePasses s) = corePasses s := by
  unfold schStep
  rw [schGuard_corePasses]
  simp

lemma processToLatex_eq_maxStep (s : List Char) :
    processToLatex s = maxStep (corePasses s) := by
  unfold processToLatex
  rw [einStep_corePasses, schStep_corePasses]

lemma processInput_eq_corePasses (s : List Char) : processInput s = corePasses s := by
  unfold processInput
  rw [einStep_corePasses]

/-!  ## Theorems about the claims  -/

/-- Claim C2: after the Greek-letter pass the processed string contains no
occurrence of `μν`, no `Λ` and no `Ψ` (the case-insensitive glyph regexes
replaced every such glyph, uppercase forms included, with an ASCII
command, and no later replacement reintroduces them), so the Einstein and
Schrödinger guards never fire and those blocks are dead: the whole
rewriter degenerates to the core passes followed by the Maxwell step. -/
theorem C2_dead_equation_branches (s : List Char) :
    containsSeq ['μ', 'ν'] (corePasses s) = false ∧
    (corePasses s).contains 'Λ' = false ∧
    (corePasses s).contains 'Ψ' = false ∧
    processToLatex s = maxStep (corePasses s) := by
  refine ⟨?_, ?_, ?_, processToLatex_eq_maxStep s⟩
  · rw [Bool.eq_false_iff]
    intro hc
    exact not_mem_greekPass_mu (fracPass (supPass (subPass s)))
      (containsSeq_subset hc 'μ' (by decide))
  · exact contains_eq_false_of_not_mem
      (not_mem_greekPass_lambda (fracPass (supPass (subPass s))))
  · exact contains_eq_false_of_not_mem
      (not_mem_greekPass_psi (fracPass (supPass (subPass s))))

/-- Claim C1 amended: the three-way Einstein guard is tested on the text
AFTER the Greek pass, which has already replaced every `μ` and `Λ`, so on
every input containing `G`, `μν` and `Λ` the guard is still false and none
of the five Einstein sub-substitutions is applied — the output is the
result of the core passes and the Maxwell step alone. -/
theorem C1_amended_guard_never_fires (s : List Char)
    (h1 : s.contains 'G' = true) (h2 : containsSeq ['μ', 'ν'] s = true)
    (h3 : s.contains 'Λ' = true) :
    einGuard (corePasses s) = false ∧ processToLatex s = maxStep (corePasses s) :=
  ⟨einGuard_corePasses s, processToLatex_eq_maxStep s⟩

/-- Witness for the amended C1 at the input `"G μν Λ"`. -/
theorem C1_amended_guard_never_fires_witness :
    einGuard (corePasses "G μν Λ".data) = false ∧
    processToLatex "G μν Λ".data = maxStep (corePasses "G μν Λ".data) :=
  C1_amended_guard_never_fires "G μν Λ".data (by decide) (by decide) (by decide)

/-- Claim C3 amended: the shared utility rewriter and the inlined copy do
NOT compute the same function — the inlined copy lacks the Schrödinger and
Maxwell blocks.  Their exact relationship: `processToLatex` is the Maxwell
step applied to `processInput`'s output (the Schrödinger block is dead),
so the two agree exactly on inputs whose processed text does not trigger
the Maxwell guard. -/
theorem C3_amended_maxwell_delta (s : List Char) :
    processToLatex s = maxStep (processInput s) ∧
    (maxGuard (processInput s) = false → processToLatex s = processInput s) := by
  have h1 : processToLatex s = maxStep (processInput s) := by
    rw [processToLatex_eq_maxStep, processInput_eq_corePasses]
  refine ⟨h1, fun hg => ?_⟩
  rw [h1]
  unfold maxStep
  rw [hg]
  simp

/-- Witness for the amended C3: on `"x_1"` the Maxwell guard does not fire
and the two rewriters agree. -/
theorem C3_amended_maxwell_delta_witness :
    processToLatex "x_1".data = processInput "x_1".data :=
  (C3_amended_maxwell_delta "x_1".data).2 (by decide)

/-- Claim C9: Greek-letter rewriting maps the English name, the glyph and
the uppercased name, case-insensitively, to the lowercase LaTeX command:
`rewriteToLatex("alpha") = "\alpha"`, `rewriteToLatex("α") = "\alpha"` and
`rewriteToLatex("ALPHA") = "\alpha"`. -/
theorem C9_greek_case_insensitive :
    processToLatex "alpha".data = "\\alpha".data ∧
    processToLatex "α".data = "\\alpha".data ∧
    processToLatex "ALPHA".data = "\\alpha".data := by decide

/-- Claim C10: for every table entry, the uppercase counterpart of the
lowercase glyph (its canonical form) is also rewritten to the lowercase
LaTeX command, because the glyph alternative of the entry's regex carries
the case-insensitive flag: e.g. `rewriteToLatex("Δ") = "\delta"`. -/
theorem C10_uppercase_glyphs :
    ∀ e ∈ greekLetters, processToLatex [Char.ofNat (canonN e.2)] = '\\' :: e.1 := by
  decide

/-- Witness for C10 at the `delta` entry: `rewriteToLatex("Δ") = "\delta"`. -/
theorem C10_uppercase_glyphs_witness :
    processToLatex ['Δ'] = '\\' :: "delta".data := by
  have h := C10_uppercase_glyphs ("delta".data, 'δ') (by decide)
  have e : Char.ofNat (canonN 'δ') = 'Δ' := by decide
  rw [e] at h
  exact h

/-- Counterexample to claim C4 as stated: `\delta`, the output of
`rewriteToLatex` on the Greek name `delta`, is NOT a fixed point — the
word-boundary `\b` holds between the non-word character `\` and the letter
`d`, so the `delta` entry re-matches and a second backslash is prepended. -/
theorem C4_counterexample :
    ¬ processToLatex (processToLatex "delta".data) = processToLatex "delta".data := by
  decide

/-- Claim C4 amended: the backslash-prefixed Greek command forms are not
fixed points; since `\` is not a word character the name entry re-matches
the backslash-prefixed form, and for every Greek name `n` of the table a
second application prepends one more backslash:
`rewriteToLatex(rewriteToLatex(n)) = '\' ++ rewriteToLatex(n)
≠ rewriteToLatex(n)`. -/
theorem C4_amended_backslash_growth :
    ∀ e ∈ greekLetters,
      processToLatex (processToLatex e.1) = '\\' :: processToLatex e.1 ∧
      processToLatex (processToLatex e.1) ≠ processToLatex e.1 := by decide

/-- Witness for the amended C4 at the `delta` entry. -/
theorem C4_amended_backslash_growth_witness :
    processToLatex (processToLatex "delta".data) = '\\' :: processToLatex "delta".data ∧
    processToLatex (processToLatex "delta".data) ≠ processToLatex "delta".data :=
  C4_amended_backslash_growth ("delta".data, 'δ') (by decide)

/-- Counterexample to claim C1 as stated: the input `"G μν Λ"` contains
`G`, `μν` and `Λ`, yet the output contains none of the Einstein forms —
the Greek pass has already replaced the glyphs, so the output is
`"G \mu\nu \lambda"` and does not contain `G_{\mu\nu}`. -/
theorem C1_counterexample :
    processToLatex "G μν Λ".data = "G \\mu\\nu \\lambda".data ∧
    containsSeq "G_\x7b\\mu\\nu\x7d".data (processToLatex "G μν Λ".data) = false := by decide

/-- Counterexample to claim C3 as stated: on `"∇.E"` the shared utility
applies its Maxwell block while the inlined copy (which has no Maxwell
block) returns the input unchanged, so the two functions differ. -/
theorem C3_counterexample :
    processToLatex "∇.E".data ≠ processInput "∇.E".data := by decide

/-!  ## Completeness of the detector's chain regexes  -/

lemma stripLit_append (l r : List Char) : stripLit l (l ++ r) = some r := by
  induction l with
  | nil => rfl
  | cons c cs ih => simp [stripLit, ih]

lemma stripTok_lit_append (l r : List Char) : stripTok (.lit l) (l ++ r) = some r :=
  stripLit_append l r

/-- The tokens `ts` occur, in order, in `s`, with every gap between a
token and the next free of line terminators (the leading gap included)
and every token occurrence nonempty. -/
inductive ChainHolds : List RTok → List Char → Prop where
  | nil : ∀ s, ChainHolds [] s
  | step : ∀ t ts gap w rest, w ≠ [] → (∀ c ∈ gap, isLineTerm c = false) →
      stripTok t (w ++ rest) = some rest → ChainHolds ts rest →
      ChainHolds (t :: ts) (gap ++ (w ++ rest))

lemma chainGapF_complete :
    ∀ (fuel : Nat) (ts : List RTok) (s : List Char), ChainHolds ts s →
      ts.length + s.length ≤ fuel → chainGapF fuel ts s = true := by
  intro fuel
  induction fuel with
  | zero =>
    intro ts s hch hf
    cases ts with
    | nil => rfl
    | cons t ts => exact absurd hf (by simp only [List.length_cons]; omega)
  | succ fuel ih =>
    intro ts s hch hf
    cases hch with
    | nil => rfl
    | step t ts gap w rest hw hgap hstrip hrest =>
      cases gap with
      | nil =>
        cases w with
        | nil => exact absurd rfl hw
        | cons wh wt =>
          have hstrip' : stripTok t (wh :: (wt ++ rest)) = some rest := by
            simpa using hstrip
          have hlen : ts.length + rest.length ≤ fuel := by
            simp only [List.nil_append, List.cons_append, List.length_cons,
              List.length_append] at hf ⊢
            omega
          have hrec := ih ts rest hrest hlen
          simp [chainGapF, hstrip', hrec]
      | cons g0 gap' =>
        have hg0 : isLineTerm g0 = false := hgap g0 (List.mem_cons_self g0 gap')
        have hch' : ChainHolds (t :: ts) (gap' ++ (w ++ rest)) :=
          ChainHolds.step t ts gap' w rest hw
            (fun c hc => hgap c (List.mem_cons_of_mem g0 hc)) hstrip hrest
        have hlen : (t :: ts).length + (gap' ++ (w ++ rest)).length ≤ fuel := by
          simp only [List.cons_append, List.length_cons, List.length_append] at hf ⊢
          omega
        have hrec := ih (t :: ts) _ hch' hlen
        simp [chainGapF, hg0, hrec]

lemma chainAny_complete {t : RTok} {ts : List RTok} :
    ∀ (pre w rest : List Char), w ≠ [] → stripTok t (w ++ rest) = some rest →
      ChainHolds ts rest → chainAny (t :: ts) (pre ++ (w ++ rest)) = true := by
  intro pre
  induction pre with
  | nil =>
    intro w rest hw hstrip hch
    cases w with
    | nil => exact absurd rfl hw
    | cons wh wt =>
      have hstrip' : stripTok t (wh :: (wt ++ rest)) = some rest := by simpa using hstrip
      have h1 : matchHead (t :: ts) (wh :: (wt ++ rest)) = true := by
        simp only [matchHead, hstrip']
        exact chainGapF_complete _ ts rest hch le_rfl
      simp [chainAny, h1]
  | cons p pre' ih =>
    intro w rest hw hstrip hch
    have hrec := ih w rest hw hstrip hch
    simp [chainAny, hrec]

/-- Counterexample to claim C7 as stated: in `"G\nμν Λ g μν T μν"` the
seven tokens `G`, `μν`, `Λ`, `g`, `μν`, `T`, `μν` occur in the required
left-to-right order (the displayed decomposition), yet
`isEinsteinEquation` is `false`, because the `.*` gaps of the detector
regex cannot cross the line terminator. -/
theorem C7_counterexample :
    (['G'] ++ ['\n'] ++ ['μ', 'ν'] ++ [' '] ++ ['Λ'] ++ [' ', 'g', ' '] ++
        ['μ', 'ν'] ++ [' ', 'T', ' '] ++ ['μ', 'ν'] = "G\nμν Λ g μν T μν".data) ∧
    (detectPatterns "G\nμν Λ g μν T μν".data).isEinsteinEquation = false := by decide

/-- Claim C7 amended: `isEinsteinEquation` is the ordered containment
chain `G`, `μν`, `Λ`, `g`, `μν`, `T`, `μν` with the restriction that the
gaps BETWEEN the tokens contain no line terminators (they are matched by
`.*`, and `.` does not match line terminators); under that restriction the
ordered chain always fires, in particular on `"G μν Λ g μν T μν"`, and
reordering so that `Λ` precedes `G` yields `false`. -/
theorem C7_amended_ordered_chain :
    (∀ x0 x1 x2 x3 x4 x5 x6 x7 : List Char,
      (∀ c ∈ x1, isLineTerm c = false) → (∀ c ∈ x2, isLineTerm c = false) →
      (∀ c ∈ x3, isLineTerm c = false) → (∀ c ∈ x4, isLineTerm c = false) →
      (∀ c ∈ x5, isLineTerm c = false) → (∀ c ∈ x6, isLineTerm c = false) →
      (detectPatterns (x0 ++ (['G'] ++ (x1 ++ (['μ', 'ν'] ++ (x2 ++ (['Λ'] ++
        (x3 ++ (['g'] ++ (x4 ++ (['μ', 'ν'] ++ (x5 ++ (['T'] ++ (x6 ++ (['μ', 'ν'] ++
        x7))))))))))))))).isEinsteinEquation = true) ∧
    (detectPatterns "G μν Λ g μν T μν".data).isEinsteinEquation = true ∧
    (detectPatterns "Λ μν G g μν T μν".data).isEinsteinEquation = false := by
  refine ⟨?_, by decide, by decide⟩
  intro x0 x1 x2 x3 x4 x5 x6 x7 h1 h2 h3 h4 h5 h6
  show chainAny einsteinToks _ = true
  exact chainAny_complete x0 ['G'] _ (by simp) (stripTok_lit_append _ _)
    (ChainHolds.step _ _ x1 ['μ', 'ν'] _ (by simp) h1 (stripTok_lit_append _ _)
      (ChainHolds.step _ _ x2 ['Λ'] _ (by simp) h2 (stripTok_lit_append _ _)
        (ChainHolds.step _ _ x3 ['g'] _ (by simp) h3 (stripTok_lit_append _ _)
          (ChainHolds.step _ _ x4 ['μ', 'ν'] _ (by simp) h4 (stripTok_lit_append _ _)
            (ChainHolds.step _ _ x5 ['T'] _ (by simp) h5 (stripTok_lit_append _ _)
              (ChainHolds.step _ _ x6 ['μ', 'ν'] _ (by simp) h6 (stripTok_lit_append _ _)
                (ChainHolds.nil x7)))))))

/-- Witness for the amended C7: single-space gaps. -/
theorem C7_amended_ordered_chain_witness :
    (detectPatterns ([] ++ (['G'] ++ ([' '] ++ (['μ', 'ν'] ++ ([' '] ++ (['Λ'] ++
      ([' '] ++ (['g'] ++ ([' '] ++ (['μ', 'ν'] ++ ([' '] ++ (['T'] ++ ([' '] ++
      (['μ', 'ν'] ++ ([] : List Char)))))))))))))))).isEinsteinEquation = true :=
  C7_amended_ordered_chain.1 [] [' '] [' '] [' '] [' '] [' '] [' '] []
    (by decide) (by decide) (by decide) (by decide) (by decide) (by decide)

/-- Counterexample to claim C8 as stated: the input `"∇.E/x"` contains `∇`
and `E` and the occurrence `∇.E`, yet that occurrence is not rewritten to
`\nabla \cdot \vec{E}` — the earlier fraction pass turns `E/x` into
`\frac{E}{x}`, after which the Maxwell pattern no longer matches. -/
theorem C8_counterexample :
    ("∇.E/x".data.contains '∇' = true) ∧
    ("∇.E/x".data.contains 'E' = true) ∧
    (containsSeq "∇.E".data "∇.E/x".data = true) ∧
    processToLatex "∇.E/x".data = "∇.\\frac{E}{x}".data ∧
    containsSeq "\\nabla \\cdot \\vec{E}".data (processToLatex "∇.E/x".data) = false := by
  decide

/-- Claim C8 amended: the Maxwell guard and substitutions act on the
PROCESSED text (the result of the earlier passes), not on the raw input:
whenever that text contains `∇` and (`E` or `B`) the four substitutions
are applied to it, and occurrences of `∇.E`, `∇.B`, `∇×E`, `∇×B` (with
optional whitespace) that survive the earlier passes are rewritten to
`\nabla \cdot \vec{E}` etc. -/
theorem C8_amended_maxwell_on_processed :
    (∀ s : List Char, maxGuard (schStep (einStep (corePasses s))) = true →
      processToLatex s = maxwellBlock (schStep (einStep (corePasses s)))) ∧
    processToLatex "∇.E".data = "\\nabla \\cdot \\vec{E}".data ∧
    processToLatex "∇ . B".data = "\\nabla \\cdot \\vec{B}".data ∧
    processToLatex "∇× E".data = "\\nabla \\times \\vec{E}".data ∧
    processToLatex "∇ × B".data = "\\nabla \\times \\vec{B}".data := by
  refine ⟨?_, by decide, by decide, by decide, by decide⟩
  intro s hg
  unfold processToLatex maxStep
  rw [hg]
  simp

/-- Witness for the amended C8 at `"∇.E"`. -/
theorem C8_amended_maxwell_on_processed_witness :
    processToLatex "∇.E".data =
      maxwellBlock (schStep (einStep (corePasses "∇.E".data))) :=
  C8_amended_maxwell_on_processed.1 "∇.E".data (by decide)

/-!  ## Identity and idempotence machinery  -/

lemma replaceG_id {tr : List Char → Option (List Char × List Char)} :
    ∀ (s : List Char) (fuel : Nat), anyMatch tr s = false → replaceG tr fuel s = s := by
  intro s
  induction s with
  | nil => intro fuel _; cases fuel <;> rfl
  | cons c rest ih =>
    intro fuel h
    simp only [anyMatch, Bool.or_eq_false_iff] at h
    have htr : tr (c :: rest) = none := by
      rcases hx : tr (c :: rest) with _ | v
      · rfl
      · rw [hx] at h; exact absurd h.1 (by simp)
    cases fuel with
    | zero => rfl
    | succ fuel =>
      rw [replaceG, htr]
      exact congrArg (c :: ·) (ih fuel h.2)

lemma subM_none_of_snd_ne {c d : Char} {r : List Char} (h : d ≠ '_') :
    subM (c :: d :: r) = none := by
  simp [subM, h]

lemma supM_none_of_snd_ne {c d : Char} {r : List Char} (h : d ≠ '^') :
    supM (c :: d :: r) = none := by
  simp [supM, h]

lemma anyMatch_subM_false {s : List Char} (h : '_' ∉ s) : anyMatch subM s = false := by
  induction s with
  | nil => rfl
  | cons c rest ih =>
    have hrest : '_' ∉ rest := fun hc => h (List.mem_cons_of_mem c hc)
    have hm : subM (c :: rest) = none := by
      cases rest with
      | nil => rfl
      | cons d r2 =>
        exact subM_none_of_snd_ne fun hd =>
          h (hd ▸ List.mem_cons_of_mem c (List.mem_cons_self d r2))
    simp [anyMatch, hm, ih hrest]

lemma anyMatch_supM_false {s : List Char} (h : '^' ∉ s) : anyMatch supM s = false := by
  induction s with
  | nil => rfl
  | cons c rest ih =>
    have hrest : '^' ∉ rest := fun hc => h (List.mem_cons_of_mem c hc)
    have hm : supM (c :: rest) = none := by
      cases rest with
      | nil => rfl
      | cons d r2 =>
        exact supM_none_of_snd_ne fun hd =>
          h (hd ▸ List.mem_cons_of_mem c (List.mem_cons_self d r2))
    simp [anyMatch, hm, ih hrest]

lemma fracM_none_of_no_slash {c : Char} {rest : List Char} (h : '/' ∉ c :: rest) :
    fracM (c :: rest) = none := by
  have hhead : (rest.dropWhile isAlnumCh).head? ≠ some '/' := by
    intro hc
    have : '/' ∈ rest.dropWhile isAlnumCh := by
      cases hd : rest.dropWhile isAlnumCh with
      | nil => rw [hd] at hc; exact absurd hc (by simp)
      | cons a as =>
        rw [hd] at hc
        simp only [List.head?_cons, Option.some.injEq] at hc
        exact hc ▸ List.mem_cons_self a as
    exact h (List.mem_cons_of_mem c ((List.dropWhile_suffix isAlnumCh).subset this))
  simp [fracM, hhead]

lemma anyMatch_fracM_false {s : List Char} (h : '/' ∉ s) : anyMatch fracM s = false := by
  induction s with
  | nil => rfl
  | cons c rest ih =>
    have hrest : '/' ∉ rest := fun hc => h (List.mem_cons_of_mem c hc)
    simp [anyMatch, fracM_none_of_no_slash h, ih hrest]

lemma ciPrefix_of_stripName {n : List Char} :
    ∀ {last : Option Char} {u r : List Char} {lc : Option Char},
      stripName n last u = some (r, lc) → ciPrefix n u = true := by
  induction n with
  | nil => intro last u r lc _; rfl
  | cons p ps ih =>
    intro last u r lc h
    cases u with
    | nil => simp [stripName] at h
    | cons c cs =>
      simp only [stripName] at h
      split at h
      next hcp =>
        simp only [ciPrefix, Bool.and_eq_true]
        exact ⟨decide_eq_true hcp, ih h⟩
      next => exact absurd h (by simp)

lemma containsCI_of_ciPrefix_suffix {n : List Char} :
    ∀ {u v : List Char}, v <:+ u → ciPrefix n v = true → containsCI n u = true := by
  intro u
  induction u with
  | nil =>
    intro v hv hp
    rw [List.suffix_nil.mp hv] at hp
    cases n with
    | nil => rfl
    | cons p ps => simp [ciPrefix] at hp
  | cons c rest ih =>
    intro v hv hp
    rcases List.suffix_cons_iff.mp hv with rfl | hv'
    · simp [containsCI, hp]
    · simp [containsCI, ih hv' hp]

lemma greekM_none_of_conditions {n : List Char} {g : Char} {u : List Char}
    (hname : ∀ last, ∀ pr : List Char × Option Char, stripName n last u ≠ some pr)
    (hglyph : ∀ c, u.head? = some c → canonN c ≠ canonN g) :
    ∀ prev, greekM n g prev u = none := by
  intro prev
  unfold greekM
  have hna : nameAlt n prev u = none := by
    unfold nameAlt
    split
    · rfl
    · cases hsn : stripName n none u with
      | none => rfl
      | some pr => exact absurd hsn (hname none pr)
  rw [hna]
  unfold glyphAlt
  cases u with
  | nil => rfl
  | cons c cs =>
    simp only
    rw [if_neg]
    exact hglyph c rfl

lemma replaceGB_id {tr : Option Char → List Char → Option (List Char × List Char × Option Char)} :
    ∀ (s : List Char) (fuel : Nat) (prev : Option Char),
      (∀ prev' (v : List Char), v <:+ s → tr prev' v = none) →
      replaceGB tr fuel prev s = s := by
  intro s
  induction s with
  | nil => intro fuel prev _; cases fuel <;> rfl
  | cons c rest ih =>
    intro fuel prev h
    cases fuel with
    | zero => rfl
    | succ fuel =>
      rw [replaceGB, h prev (c :: rest) (List.suffix_refl _)]
      exact congrArg (c :: ·)
        (ih fuel (some c) fun prev' v hv => h prev' v (hv.trans (List.suffix_cons c rest)))

lemma entryPass_id {n : List Char} {g : Char} (hn : n ≠ []) {u : List Char}
    (hname : containsCI n u = false) (hglyph : ∀ c ∈ u, canonN c ≠ canonN g) :
    entryPass n g u = u := by
  apply replaceGB_id
  intro prev' v hv
  apply greekM_none_of_conditions
  · intro last pr hsn
    have := containsCI_of_ciPrefix_suffix hv (ciPrefix_of_stripName hsn)
    rw [hname] at this
    exact absurd this (by simp)
  · intro c hc
    apply hglyph
    apply hv.subset
    cases v with
    | nil => exact absurd hc (by simp)
    | cons a as =>
      simp only [List.head?_cons, Option.some.injEq] at hc
      exact hc ▸ List.mem_cons_self a as

lemma entryFold_id :
    ∀ (entries : List (List Char × Char)) (u : List Char),
      (∀ e ∈ entries, e.1 ≠ [] ∧ containsCI e.1 u = false ∧
        (∀ c ∈ u, canonN c ≠ canonN e.2)) →
      entryFold entries u = u := by
  intro entries
  induction entries with
  | nil => intro u _; rfl
  | cons f tail ih =>
    intro u hok
    have hf := hok f (List.mem_cons_self f tail)
    have step : entryPass f.1 f.2 u = u := entryPass_id hf.1 hf.2.1 hf.2.2
    have : entryFold (f :: tail) u = entryFold tail (entryPass f.1 f.2 u) := rfl
    rw [this, step]
    exact ih u fun e he => hok e (List.mem_cons_of_mem f he)

lemma greekPass_id {u : List Char}
    (hname : ∀ e ∈ greekLetters, containsCI e.1 u = false)
    (hglyph : ∀ e ∈ greekLetters, ∀ c ∈ u, canonN c ≠ canonN e.2) :
    greekPass u = u := by
  rw [greekPass_eq_entryFold]
  exact entryFold_id greekLetters u fun e he =>
    ⟨by revert he; revert e; decide, hname e he, hglyph e he⟩

/-- Claim C6: on inputs with no underscore, no caret, no slash, no Greek
letter name (as a case-insensitive substring), no Greek glyph (up to the
case-insensitive matching of the glyph regexes) and no equation-guard
trigger, `rewriteToLatex` is the identity. -/
theorem C6_identity_on_trigger_free (s : List Char)
    (h1 : '_' ∉ s) (h2 : '^' ∉ s) (h3 : '/' ∉ s)
    (h4 : ∀ e ∈ greekLetters, containsCI e.1 s = false)
    (h5 : ∀ e ∈ greekLetters, ∀ c ∈ s, canonN c ≠ canonN e.2)
    (h6 : einGuard s = false) (h7 : schGuard s = false) (h8 : maxGuard s = false) :
    processToLatex s = s := by
  have hcore : corePasses s = s := by
    unfold corePasses subPass supPass fracPass applyG
    rw [replaceG_id s _ (anyMatch_subM_false h1)]
    rw [replaceG_id s _ (anyMatch_supM_false h2)]
    rw [replaceG_id s _ (anyMatch_fracM_false h3)]
    exact greekPass_id h4 h5
  have e1 : einStep s = s := by unfold einStep; rw [h6]; simp
  have e2 : schStep s = s := by unfold schStep; rw [h7]; simp
  have e3 : maxStep s = s := by unfold maxStep; rw [h8]; simp
  unfold processToLatex
  rw [hcore, e1, e2, e3]

/-- Witness for C6: `"hello world"` is returned unchanged. -/
theorem C6_identity_on_trigger_free_witness :
    processToLatex "hello world".data = "hello world".data :=
  C6_identity_on_trigger_free "hello world".data (by decide) (by decide) (by decide)
    (by decide) (by decide) (by decide) (by decide) (by decide)

/-!  ## Machinery for the idempotence claim (C5)

The first application of the rewriter turns a trigger-free input into the
result of passes 1–3; the second application must leave that result
untouched.  We prove: (a) the output of each of passes 1–3 contains no
match of its own regex, and creates no match of the earlier regexes;
(b) those passes only insert `{`, `}` and `\frac{…}{…}` material, which
can neither complete a Greek-name occurrence nor introduce a glyph or a
guard character.  -/

lemma head_dropWhile_false {p : Char → Bool} {l : List Char} {x : Char}
    (h : (l.dropWhile p).head? = some x) : p x = false := by
  have hd := List.head?_dropWhile_not p l
  rw [h] at hd
  exact hd

lemma subM_some_spec {u out r : List Char} (h : subM u = some (out, r)) :
    ∃ c r2, u = c :: '_' :: r2 ∧ isAsciiLetter c = true ∧
      r2.takeWhile isAlnumCh ≠ [] ∧
      out = [c, '_', '{'] ++ r2.takeWhile isAlnumCh ++ ['}'] ∧
      r = r2.dropWhile isAlnumCh := by
  match u with
  | [] => exact absurd h (by simp [subM])
  | [c] => exact absurd h (by simp [subM])
  | c :: d :: r2 =>
    simp only [subM] at h
    split at h
    next hcond =>
      simp only [Bool.and_eq_true, decide_eq_true_eq, Bool.not_eq_true'] at hcond
      obtain ⟨⟨hletter, hd⟩, hne⟩ := hcond
      subst hd
      simp only [Option.some.injEq, Prod.mk.injEq] at h
      refine ⟨c, r2, rfl, hletter, ?_, h.1.symm, h.2.symm⟩
      intro heq
      rw [heq] at hne
      exact absurd hne (by simp)
    next => exact absurd h (by simp)

lemma supM_some_spec {u out r : List Char} (h : supM u = some (out, r)) :
    ∃ c r2, u = c :: '^' :: r2 ∧ isAlnumCh c = true ∧
      r2.takeWhile isAlnumCh ≠ [] ∧
      out = [c, '^', '{'] ++ r2.takeWhile isAlnumCh ++ ['}'] ∧
      r = r2.dropWhile isAlnumCh := by
  match u with
  | [] => exact absurd h (by simp [supM])
  | [c] => exact absurd h (by simp [supM])
  | c :: d :: r2 =>
    simp only [supM] at h
    split at h
    next hcond =>
      simp only [Bool.and_eq_true, decide_eq_true_eq, Bool.not_eq_true'] at hcond
      obtain ⟨⟨halnum, hd⟩, hne⟩ := hcond
      subst hd
      simp only [Option.some.injEq, Prod.mk.injEq] at h
      refine ⟨c, r2, rfl, halnum, ?_, h.1.symm, h.2.symm⟩
      intro heq
      rw [heq] at hne
      exact absurd hne (by simp)
    next => exact absurd h (by simp)

lemma fracM_some_spec {u out r : List Char} (h : fracM u = some (out, r)) :
    ∃ c rest, u = c :: rest ∧ isAlnumCh c = true ∧
      (rest.dropWhile isAlnumCh).head? = some '/' ∧
      ((rest.dropWhile isAlnumCh).tail).takeWhile isAlnumCh ≠ [] ∧
      out = ['\\', 'f', 'r', 'a', 'c', '{'] ++ (c :: rest.takeWhile isAlnumCh) ++
            ['}', '{'] ++ ((rest.dropWhile isAlnumCh).tail).takeWhile isAlnumCh ++ ['}'] ∧
      r = ((rest.dropWhile isAlnumCh).tail).dropWhile isAlnumCh := by
  match u with
  | [] => exact absurd h (by simp [fracM])
  | c :: rest =>
    simp only [fracM] at h
    split at h
    next hcond =>
      simp only [Bool.and_eq_true, decide_eq_true_eq, Bool.not_eq_true'] at hcond
      obtain ⟨⟨halnum, hslash⟩, hne⟩ := hcond
      simp only [Option.some.injEq, Prod.mk.injEq] at h
      refine ⟨c, rest, rfl, halnum, hslash, ?_, h.1.symm, h.2.symm⟩
      intro heq
      rw [heq] at hne
      exact absurd hne (by simp)
    next => exact absurd h (by simp)

lemma mem_replaceG {tr : List Char → Option (List Char × List Char)} {ins : List Char}
    (hspec : ∀ u out r, tr u = some (out, r) →
      (∀ x ∈ out, x ∈ u ∨ x ∈ ins) ∧ (∀ x ∈ r, x ∈ u)) :
    ∀ (fuel : Nat) (s : List Char) (x : Char),
      x ∈ replaceG tr fuel s → x ∈ s ∨ x ∈ ins := by
  intro fuel
  induction fuel with
  | zero => intro s x hx; exact Or.inl hx
  | succ fuel ih =>
    intro s x hx
    cases s with
    | nil => simp [replaceG] at hx
    | cons c rest =>
      rw [replaceG] at hx
      cases hm : tr (c :: rest) with
      | some pr =>
        obtain ⟨out, r⟩ := pr
        rw [hm] at hx
        simp only at hx
        obtain ⟨hout, hr⟩ := hspec _ _ _ hm
        rcases List.mem_append.mp hx with h1 | h2
        · exact hout x h1
        · rcases ih r x h2 with hin | hins
          · exact Or.inl (hr x hin)
          · exact Or.inr hins
      | none =>
        rw [hm] at hx
        simp only at hx
        rcases List.mem_cons.mp hx with rfl | h2
        · exact Or.inl (List.mem_cons_self x rest)
        · rcases ih rest x h2 with hin | hins
          · exact Or.inl (List.mem_cons_of_mem c hin)
          · exact Or.inr hins

lemma subM_chars :
    ∀ (u out r : List Char), subM u = some (out, r) →
      (∀ x ∈ out, x ∈ u ∨ x ∈ ['{', '}']) ∧ (∀ x ∈ r, x ∈ u) := by
  intro u out r h
  obtain ⟨c, r2, hu, _, _, hout, hr⟩ := subM_some_spec h
  subst hu hout hr
  constructor
  · intro x hx
    rcases List.mem_append.mp hx with h1 | h1
    · rcases List.mem_append.mp h1 with h2 | h2
      · rcases List.mem_cons.mp h2 with rfl | h3
        · exact Or.inl (List.mem_cons_self _ _)
        rcases List.mem_cons.mp h3 with rfl | h4
        · exact Or.inl (List.mem_cons_of_mem _ (List.mem_cons_self _ _))
        rcases List.mem_cons.mp h4 with rfl | h5
        · exact Or.inr (by simp)
        · exact absurd h5 (List.not_mem_nil x)
      · exact Or.inl (List.mem_cons_of_mem _ (List.mem_cons_of_mem _
          ((List.takeWhile_prefix isAlnumCh).subset h2)))
    · rcases List.mem_cons.mp h1 with rfl | h3
      · exact Or.inr (by simp)
      · exact absurd h3 (List.not_mem_nil x)
  · intro x hx
    exact List.mem_cons_of_mem _ (List.mem_cons_of_mem _
      ((List.dropWhile_suffix isAlnumCh).subset hx))

lemma supM_chars :
    ∀ (u out r : List Char), supM u = some (out, r) →
      (∀ x ∈ out, x ∈ u ∨ x ∈ ['{', '}']) ∧ (∀ x ∈ r, x ∈ u) := by
  intro u out r h
  obtain ⟨c, r2, hu, _, _, hout, hr⟩ := supM_some_spec h
  subst hu hout hr
  constructor
  · intro x hx
    rcases List.mem_append.mp hx with h1 | h1
    · rcases List.mem_append.mp h1 with h2 | h2
      · rcases List.mem_cons.mp h2 with rfl | h3
        · exact Or.inl (List.mem_cons_self _ _)
        rcases List.mem_cons.mp h3 with rfl | h4
        · exact Or.inl (List.mem_cons_of_mem _ (List.mem_cons_self _ _))
        rcases List.mem_cons.mp h4 with rfl | h5
        · exact Or.inr (by simp)
        · exact absurd h5 (List.not_mem_nil x)
      · exact Or.inl (List.mem_cons_of_mem _ (List.mem_cons_of_mem _
          ((List.takeWhile_prefix isAlnumCh).subset h2)))
    · rcases List.mem_cons.mp h1 with rfl | h3
      · exact Or.inr (by simp)
      · exact absurd h3 (List.not_mem_nil x)
  · intro x hx
    exact List.mem_cons_of_mem _ (List.mem_cons_of_mem _
      ((List.dropWhile_suffix isAlnumCh).subset hx))

lemma fracM_chars :
    ∀ (u out r : List Char), fracM u = some (out, r) →
      (∀ x ∈ out, x ∈ u ∨ x ∈ ['\\', 'f', 'r', 'a', 'c', '{', '}']) ∧
      (∀ x ∈ r, x ∈ u) := by
  intro u out r h
  obtain ⟨c, rest, hu, _, hslash, _, hout, hr⟩ := fracM_some_spec h
  subst hu hout hr
  have hdrop : ∀ x ∈ rest.dropWhile isAlnumCh, x ∈ c :: rest := fun x hx =>
    List.mem_cons_of_mem _ ((List.dropWhile_suffix isAlnumCh).subset hx)
  have htail : ∀ x ∈ (rest.dropWhile isAlnumCh).tail, x ∈ c :: rest := fun x hx =>
    hdrop x (List.mem_of_mem_tail hx)
  constructor
  · intro x hx
    rcases List.mem_append.mp hx with h1 | h1
    · rcases List.mem_append.mp h1 with h2 | h2
      · rcases List.mem_append.mp h2 with h3 | h3
        · rcases List.mem_append.mp h3 with h4 | h4
          · -- x ∈ ['\\','f','r','a','c','{']
            exact Or.inr (by
              simp only [List.mem_cons, List.not_mem_nil, or_false] at h4 ⊢
              tauto)
          · -- x ∈ c :: takeWhile
            rcases List.mem_cons.mp h4 with rfl | h5
            · exact Or.inl (List.mem_cons_self _ _)
            · exact Or.inl (List.mem_cons_of_mem _
                ((List.takeWhile_prefix isAlnumCh).subset h5))
        · -- x ∈ ['}','{']
          exact Or.inr (by
            simp only [List.mem_cons, List.not_mem_nil, or_false] at h3 ⊢
            tauto)
      · -- x ∈ denominator run
        exact Or.inl (htail x ((List.takeWhile_prefix isAlnumCh).subset h2))
    · -- x ∈ ['}']
      rcases List.mem_cons.mp h1 with rfl | h3
      · exact Or.inr (by simp)
      · exact absurd h3 (List.not_mem_nil x)
  · intro x hx
    exact htail x ((List.dropWhile_suffix isAlnumCh).subset hx)

lemma head?_append_of_head {o w : List Char} {c : Char} (h : o.head? = some c) :
    (o ++ w).head? = some c := by
  cases o with
  | nil => simp at h
  | cons a as => simpa using h

/-- The head of a pass output is the head of its input, except that a
fraction replacement starts with a backslash. -/
lemma head?_replaceG_or {tr : List Char → Option (List Char × List Char)}
    (hhead : ∀ u out r, tr u = some (out, r) → out.head? = u.head? ∨ out.head? = some '\\') :
    ∀ (fuel : Nat) (s : List Char),
      (replaceG tr fuel s).head? = s.head? ∨ (replaceG tr fuel s).head? = some '\\' := by
  intro fuel s
  cases fuel with
  | zero => exact Or.inl rfl
  | succ fuel =>
    cases s with
    | nil => exact Or.inl rfl
    | cons c rest =>
      rw [replaceG]
      cases hm : tr (c :: rest) with
      | some pr =>
        obtain ⟨out, r⟩ := pr
        simp only
        rcases hhead _ _ _ hm with h | h
        · exact Or.inl (head?_append_of_head (by rw [h]; rfl))
        · exact Or.inr (head?_append_of_head h)
      | none => exact Or.inl rfl

lemma subM_head_or :
    ∀ (u out r : List Char), subM u = some (out, r) →
      out.head? = u.head? ∨ out.head? = some '\\' := by
  intro u out r h
  obtain ⟨c, r2, hu, _, _, hout, _⟩ := subM_some_spec h
  subst hu hout
  exact Or.inl rfl

lemma supM_head_or :
    ∀ (u out r : List Char), supM u = some (out, r) →
      out.head? = u.head? ∨ out.head? = some '\\' := by
  intro u out r h
  obtain ⟨c, r2, hu, _, _, hout, _⟩ := supM_some_spec h
  subst hu hout
  exact Or.inl rfl

lemma fracM_head_or :
    ∀ (u out r : List Char), fracM u = some (out, r) →
      out.head? = u.head? ∨ out.head? = some '\\' := by
  intro u out r h
  obtain ⟨c, rest, hu, _, _, _, hout, _⟩ := fracM_some_spec h
  subst hu hout
  exact Or.inr rfl

lemma subM_none_first {c : Char} {rest : List Char} (h : isAsciiLetter c = false) :
    subM (c :: rest) = none := by
  cases rest with
  | nil => rfl
  | cons d r2 => simp [subM, h]

lemma supM_none_first {c : Char} {rest : List Char} (h : isAlnumCh c = false) :
    supM (c :: rest) = none := by
  cases rest with
  | nil => rfl
  | cons d r2 => simp [supM, h]

lemma fracM_none_first {c : Char} {rest : List Char} (h : isAlnumCh c = false) :
    fracM (c :: rest) = none := by
  simp [fracM, h]

/-- Failure cases of the subscript matcher, phrased on head and tail. -/
lemma subM_none_cases {c : Char} {W : List Char}
    (h : isAsciiLetter c = false ∨ W.head? ≠ some '_' ∨ W.tail.takeWhile isAlnumCh = []) :
    subM (c :: W) = none := by
  cases W with
  | nil => rfl
  | cons d r2 =>
    rcases h with h | h | h
    · exact subM_none_first h
    · exact subM_none_of_snd_ne fun hd => h (by simp [hd])
    · simp only [List.tail_cons] at h
      simp [subM, h]

lemma supM_none_cases {c : Char} {W : List Char}
    (h : isAlnumCh c = false ∨ W.head? ≠ some '^' ∨ W.tail.takeWhile isAlnumCh = []) :
    supM (c :: W) = none := by
  cases W with
  | nil => rfl
  | cons d r2 =>
    rcases h with h | h | h
    · exact supM_none_first h
    · exact supM_none_of_snd_ne fun hd => h (by simp [hd])
    · simp only [List.tail_cons] at h
      simp [supM, h]

lemma fracM_none_cases {c : Char} {W : List Char}
    (h : isAlnumCh c = false ∨ (W.dropWhile isAlnumCh).head? ≠ some '/' ∨
      (W.dropWhile isAlnumCh).tail.takeWhile isAlnumCh = []) :
    fracM (c :: W) = none := by
  rcases h with h | h | h
  · exact fracM_none_first h
  · simp [fracM, h]
  · simp [fracM, h]

lemma subM_none_elim {c d : Char} {r2 : List Char} (h : subM (c :: d :: r2) = none) :
    isAsciiLetter c = false ∨ d ≠ '_' ∨ r2.takeWhile isAlnumCh = [] := by
  by_cases h1 : isAsciiLetter c = true
  · by_cases h2 : d = '_'
    · by_cases h3 : r2.takeWhile isAlnumCh = []
      · exact Or.inr (Or.inr h3)
      · exfalso
        have hcond : (isAsciiLetter c && d = '_' && !(r2.takeWhile isAlnumCh).isEmpty) = true := by
          simp [h1, h2, List.isEmpty_iff, h3]
        simp only [subM, hcond, if_true] at h
        exact absurd h (by simp)
    · exact Or.inr (Or.inl h2)
  · exact Or.inl (by rwa [Bool.not_eq_true] at h1)

lemma supM_none_elim {c d : Char} {r2 : List Char} (h : supM (c :: d :: r2) = none) :
    isAlnumCh c = false ∨ d ≠ '^' ∨ r2.takeWhile isAlnumCh = [] := by
  by_cases h1 : isAlnumCh c = true
  · by_cases h2 : d = '^'
    · by_cases h3 : r2.takeWhile isAlnumCh = []
      · exact Or.inr (Or.inr h3)
      · exfalso
        have hcond : (isAlnumCh c && d = '^' && !(r2.takeWhile isAlnumCh).isEmpty) = true := by
          simp [h1, h2, List.isEmpty_iff, h3]
        simp only [supM, hcond, if_true] at h
        exact absurd h (by simp)
    · exact Or.inr (Or.inl h2)
  · exact Or.inl (by rwa [Bool.not_eq_true] at h1)

lemma fracM_none_elim {c : Char} {rest : List Char} (h : fracM (c :: rest) = none) :
    isAlnumCh c = false ∨ (rest.dropWhile isAlnumCh).head? ≠ some '/' ∨
      (rest.dropWhile isAlnumCh).tail.takeWhile isAlnumCh = [] := by
  by_cases h1 : isAlnumCh c = true
  · by_cases h2 : (rest.dropWhile isAlnumCh).head? = some '/'
    · by_cases h3 : (rest.dropWhile isAlnumCh).tail.takeWhile isAlnumCh = []
      · exact Or.inr (Or.inr h3)
      · exfalso
        have hcond : (isAlnumCh c && (rest.dropWhile isAlnumCh).head? = some '/' &&
            !(((rest.dropWhile isAlnumCh).tail).takeWhile isAlnumCh).isEmpty) = true := by
          simp [h1, h2, List.isEmpty_iff, h3]
        simp only [fracM, hcond, if_true] at h
        exact absurd h (by simp)
    · exact Or.inr (Or.inl h2)
  · exact Or.inl (by rwa [Bool.not_eq_true] at h1)

lemma takeWhile_nil_of_head {p : Char → Bool} {u : List Char}
    (h : ∀ x, u.head? = some x → p x = false) : u.takeWhile p = [] := by
  cases u with
  | nil => rfl
  | cons a as => simp [List.takeWhile_cons, h a rfl]

lemma head_false_of_takeWhile_nil {p : Char → Bool} {u : List Char}
    (h : u.takeWhile p = []) : ∀ x, u.head? = some x → p x = false := by
  intro x hx
  cases u with
  | nil => simp at hx
  | cons a as =>
    simp only [List.head?_cons, Option.some.injEq] at hx
    by_cases hp : p a = true
    · rw [List.takeWhile_cons, if_pos hp] at h
      exact absurd h (by simp)
    · rw [← hx]
      rwa [Bool.not_eq_true] at hp

lemma anyMatch_false_suffix {tr : List Char → Option (List Char × List Char)} :
    ∀ {u v : List Char}, anyMatch tr u = false → v <:+ u → anyMatch tr v = false := by
  intro u
  induction u with
  | nil => intro v h hv; rwa [List.suffix_nil.mp hv]
  | cons c rest ih =>
    intro v h hv
    simp only [anyMatch, Bool.or_eq_false_iff] at h
    rcases List.suffix_cons_iff.mp hv with rfl | hv'
    · simp [anyMatch, h.1, h.2]
    · exact ih h.2 hv'

lemma matcher_none_of_anyMatch_false {tr : List Char → Option (List Char × List Char)}
    {u : List Char} (h : anyMatch tr u = false) {c : Char} {rest : List Char}
    (hv : (c :: rest) <:+ u) : tr (c :: rest) = none := by
  have := anyMatch_false_suffix h hv
  simp only [anyMatch, Bool.or_eq_false_iff] at this
  rcases hx : tr (c :: rest) with _ | v
  · rfl
  · rw [hx] at this
    exact absurd this.1 (by simp)

lemma suffix_append_split {t A B : List Char} (h : t <:+ A ++ B) :
    t <:+ B ∨ ∃ t', t' <:+ A ∧ t' ≠ [] ∧ t = t' ++ B := by
  induction A with
  | nil => exact Or.inl (by simpa using h)
  | cons a A' ih =>
    rcases List.suffix_cons_iff.mp h with heq | h'
    · exact Or.inr ⟨a :: A', List.suffix_refl _, by simp, by simpa using heq⟩
    · rcases ih h' with h1 | ⟨t', ht1, ht2, ht3⟩
      · exact Or.inl h1
      · exact Or.inr ⟨t', ht1.trans (List.suffix_cons a A'), ht2, ht3⟩

lemma anyMatch_append_false {tr : List Char → Option (List Char × List Char)}
    {l w : List Char} (hl : ∀ t, t <:+ l → t ≠ [] → tr (t ++ w) = none)
    (hw : anyMatch tr w = false) : anyMatch tr (l ++ w) = false := by
  induction l with
  | nil => simpa
  | cons a l' ih =>
    simp only [List.cons_append, anyMatch, Bool.or_eq_false_iff]
    constructor
    · have hmm := hl (a :: l') (List.suffix_refl _) (by simp)
      rw [show (a :: l') ++ w = a :: (l' ++ w) from rfl] at hmm
      show (tr (a :: (l' ++ w))).isSome = false
      rw [hmm]
      rfl
    · exact ih fun t ht hne => hl t (ht.trans (List.suffix_cons a l')) hne

lemma replaceG_nil (tr : List Char → Option (List Char × List Char)) (fuel : Nat) :
    replaceG tr fuel [] = [] := by
  cases fuel <;> rfl

/-- Scanning a replacement chunk `l' ++ ['}']` whose body contains no
underscore creates no subscript match, whatever follows it. -/
lemma anyMatch_subM_chunk {l' w : List Char} (h1 : '_' ∉ l')
    (hw : anyMatch subM w = false) : anyMatch subM ((l' ++ ['}']) ++ w) = false := by
  apply anyMatch_append_false _ hw
  intro t ht hne
  rcases suffix_append_split ht with h | ⟨t', ht', hne', rfl⟩
  · rcases List.suffix_cons_iff.mp h with rfl | h2
    · exact subM_none_first (by decide)
    · exact absurd (List.suffix_nil.mp h2) hne
  · cases t' with
    | nil => exact absurd rfl hne'
    | cons x t₃ =>
      rw [show ((x :: t₃) ++ ['}']) ++ w = x :: ((t₃ ++ ['}']) ++ w) from by simp]
      apply subM_none_cases
      refine Or.inr (Or.inl ?_)
      cases t₃ with
      | nil => simp
      | cons y t₄ =>
        have hy : y ≠ '_' := fun hy =>
          h1 (by rw [← hy]; exact ht'.subset (List.mem_cons_of_mem x (List.mem_cons_self y t₄)))
        simp [hy]

/-- The superscript analogue of `anyMatch_subM_chunk`. -/
lemma anyMatch_supM_chunk {l' w : List Char} (h1 : '^' ∉ l')
    (hw : anyMatch supM w = false) : anyMatch supM ((l' ++ ['}']) ++ w) = false := by
  apply anyMatch_append_false _ hw
  intro t ht hne
  rcases suffix_append_split ht with h | ⟨t', ht', hne', rfl⟩
  · rcases List.suffix_cons_iff.mp h with rfl | h2
    · exact supM_none_first (by decide)
    · exact absurd (List.suffix_nil.mp h2) hne
  · cases t' with
    | nil => exact absurd rfl hne'
    | cons x t₃ =>
      rw [show ((x :: t₃) ++ ['}']) ++ w = x :: ((t₃ ++ ['}']) ++ w) from by simp]
      apply supM_none_cases
      refine Or.inr (Or.inl ?_)
      cases t₃ with
      | nil => simp
      | cons y t₄ =>
        have hy : y ≠ '^' := fun hy =>
          h1 (by rw [← hy]; exact ht'.subset (List.mem_cons_of_mem x (List.mem_cons_self y t₄)))
        simp [hy]

lemma head_dropWhile_append_brace {t₃ w : List Char} (h : ∀ x ∈ t₃, x ≠ '/') :
    (((t₃ ++ ['}']) ++ w).dropWhile isAlnumCh).head? ≠ some '/' := by
  rw [show (t₃ ++ ['}']) ++ w = t₃ ++ ('}' :: w) from by simp]
  rw [List.dropWhile_append]
  split
  next hemp =>
    have hb : ('}' :: w).dropWhile isAlnumCh = '}' :: w := by
      rw [List.dropWhile_cons, if_neg (by decide)]
    rw [hb]
    simp
  next hemp =>
    intro hc
    cases hA : t₃.dropWhile isAlnumCh with
    | nil => rw [hA] at hemp; simp at hemp
    | cons a A' =>
      rw [hA] at hc
      simp only [List.cons_append, List.head?_cons, Option.some.injEq] at hc
      have ha : a ∈ t₃ := (List.dropWhile_suffix isAlnumCh).subset (by
        rw [hA]; exact List.mem_cons_self a A')
      exact h a ha hc

/-- The fraction analogue: a chunk body free of slashes creates no
fraction match (the closing brace stops the numerator run). -/
lemma anyMatch_fracM_chunk {l' w : List Char} (h1 : '/' ∉ l')
    (hw : anyMatch fracM w = false) : anyMatch fracM ((l' ++ ['}']) ++ w) = false := by
  apply anyMatch_append_false _ hw
  intro t ht hne
  rcases suffix_append_split ht with h | ⟨t', ht', hne', rfl⟩
  · rcases List.suffix_cons_iff.mp h with rfl | h2
    · exact fracM_none_first (by decide)
    · exact absurd (List.suffix_nil.mp h2) hne
  · cases t' with
    | nil => exact absurd rfl hne'
    | cons x t₃ =>
      rw [show ((x :: t₃) ++ ['}']) ++ w = x :: ((t₃ ++ ['}']) ++ w) from by simp]
      apply fracM_none_cases
      refine Or.inr (Or.inl ?_)
      exact head_dropWhile_append_brace fun y hy hyeq =>
        h1 (by rw [← hyeq]; exact ht'.subset (List.mem_cons_of_mem x hy))

/-- A subscript non-match at a position survives any pass that neither
matches at an underscore nor emits a replacement whose head is an
underscore or an alphanumeric character (all three passes qualify: their
replacements start with the copied character or with a backslash). -/
lemma subM_preserved_none {tr' : List Char → Option (List Char × List Char)}
    (hfirst : ∀ rt : List Char, tr' ('_' :: rt) = none)
    (hhead : ∀ u out r, tr' u = some (out, r) → out.head? = u.head? ∨ out.head? = some '\\') :
    ∀ (fuel : Nat) (c : Char) (rest : List Char), subM (c :: rest) = none →
      subM (c :: replaceG tr' fuel rest) = none := by
  intro fuel c rest hm
  cases rest with
  | nil =>
    rw [replaceG_nil]
    exact subM_none_cases (Or.inr (Or.inl (by simp)))
  | cons d rt =>
    rcases subM_none_elim hm with h | h | h
    · exact subM_none_first h
    · apply subM_none_cases
      refine Or.inr (Or.inl ?_)
      rcases head?_replaceG_or hhead fuel (d :: rt) with hh | hh
      · rw [hh]; simp [h]
      · rw [hh]; simp
    · by_cases hd : d = '_'
      · subst hd
        cases fuel with
        | zero => exact hm
        | succ f =>
          have hW : replaceG tr' (f + 1) ('_' :: rt) = '_' :: replaceG tr' f rt := by
            rw [replaceG, hfirst rt]
          rw [hW]
          apply subM_none_cases
          refine Or.inr (Or.inr ?_)
          simp only [List.tail_cons]
          apply takeWhile_nil_of_head
          intro x hx
          rcases head?_replaceG_or hhead f rt with hh | hh
          · rw [hh] at hx
            exact head_false_of_takeWhile_nil h x hx
          · rw [hh] at hx
            injection hx with hx
            rw [← hx]
            decide
      · apply subM_none_cases
        refine Or.inr (Or.inl ?_)
        rcases head?_replaceG_or hhead fuel (d :: rt) with hh | hh
        · rw [hh]; simp [hd]
        · rw [hh]; simp

/-- The superscript analogue of `subM_preserved_none`. -/
lemma supM_preserved_none {tr' : List Char → Option (List Char × List Char)}
    (hfirst : ∀ rt : List Char, tr' ('^' :: rt) = none)
    (hhead : ∀ u out r, tr' u = some (out, r) → out.head? = u.head? ∨ out.head? = some '\\') :
    ∀ (fuel : Nat) (c : Char) (rest : List Char), supM (c :: rest) = none →
      supM (c :: replaceG tr' fuel rest) = none := by
  intro fuel c rest hm
  cases rest with
  | nil =>
    rw [replaceG_nil]
    exact supM_none_cases (Or.inr (Or.inl (by simp)))
  | cons d rt =>
    rcases supM_none_elim hm with h | h | h
    · exact supM_none_first h
    · apply supM_none_cases
      refine Or.inr (Or.inl ?_)
      rcases head?_replaceG_or hhead fuel (d :: rt) with hh | hh
      · rw [hh]; simp [h]
      · rw [hh]; simp
    · by_cases hd : d = '^'
      · subst hd
        cases fuel with
        | zero => exact hm
        | succ f =>
          have hW : replaceG tr' (f + 1) ('^' :: rt) = '^' :: replaceG tr' f rt := by
            rw [replaceG, hfirst rt]
          rw [hW]
          apply supM_none_cases
          refine Or.inr (Or.inr ?_)
          simp only [List.tail_cons]
          apply takeWhile_nil_of_head
          intro x hx
          rcases head?_replaceG_or hhead f rt with hh | hh
          · rw [hh] at hx
            exact head_false_of_takeWhile_nil h x hx
          · rw [hh] at hx
            injection hx with hx
            rw [← hx]
            decide
      · apply supM_none_cases
        refine Or.inr (Or.inl ?_)
        rcases head?_replaceG_or hhead fuel (d :: rt) with hh | hh
        · rw [hh]; simp [hd]
        · rw [hh]; simp

/-- The output of the subscript pass contains no subscript match: the
inserted braces break every candidate. -/
lemma no_subM_in_subPass :
    ∀ (fuel : Nat) (s : List Char), s.length ≤ fuel →
      anyMatch subM (replaceG subM fuel s) = false := by
  intro fuel
  induction fuel with
  | zero =>
    intro s hf
    rw [List.length_eq_zero.mp (Nat.le_zero.mp hf)]
    rfl
  | succ fuel ih =>
    intro s hf
    cases s with
    | nil => rfl
    | cons c rest =>
      rw [replaceG]
      cases hm : subM (c :: rest) with
      | some pr =>
        obtain ⟨out, r⟩ := pr
        simp only
        obtain ⟨c0, r2, hu, hlet, hrun, hout, hr⟩ := subM_some_spec hm
        injection hu with hc hrest
        subst hc hrest hout hr
        have hfr : (r2.dropWhile isAlnumCh).length ≤ fuel := by
          have := (List.dropWhile_suffix isAlnumCh (l := r2)).length_le
          simp only [List.length_cons] at hf
          omega
        have hW := ih _ hfr
        rw [show ([c, '_', '{'] ++ r2.takeWhile isAlnumCh ++ ['}']) ++
              replaceG subM fuel (r2.dropWhile isAlnumCh) =
            c :: '_' :: ((('{' :: r2.takeWhile isAlnumCh) ++ ['}']) ++
              replaceG subM fuel (r2.dropWhile isAlnumCh)) from by simp]
        simp only [anyMatch, Bool.or_eq_false_iff]
        refine ⟨?_, ?_, ?_, ?_⟩
        · rw [subM_none_cases (Or.inr (Or.inr (by
            simp only [List.tail_cons]
            apply takeWhile_nil_of_head
            intro x hx
            simp only [List.cons_append, List.head?_cons, Option.some.injEq] at hx
            rw [← hx]
            decide)))]
          rfl
        · rw [subM_none_first (by decide)]
          rfl
        · rw [subM_none_first (by decide)]
          rfl
        · show anyMatch subM ((r2.takeWhile isAlnumCh ++ ['}']) ++
            replaceG subM fuel (r2.dropWhile isAlnumCh)) = false
          refine anyMatch_subM_chunk ?_ hW
          intro hmem
          exact absurd (List.mem_takeWhile_imp hmem) (by decide)
      | none =>
        simp only [anyMatch, Bool.or_eq_false_iff]
        have hfr : rest.length ≤ fuel := by
          simp only [List.length_cons] at hf
          omega
        refine ⟨?_, ih rest hfr⟩
        rw [subM_preserved_none (fun rt => subM_none_first (by decide))
          subM_head_or fuel c rest hm]
        rfl

/-- The output of the superscript pass contains no superscript match. -/
lemma no_supM_in_supPass :
    ∀ (fuel : Nat) (s : List Char), s.length ≤ fuel →
      anyMatch supM (replaceG supM fuel s) = false := by
  intro fuel
  induction fuel with
  | zero =>
    intro s hf
    rw [List.length_eq_zero.mp (Nat.le_zero.mp hf)]
    rfl
  | succ fuel ih =>
    intro s hf
    cases s with
    | nil => rfl
    | cons c rest =>
      rw [replaceG]
      cases hm : supM (c :: rest) with
      | some pr =>
        obtain ⟨out, r⟩ := pr
        simp only
        obtain ⟨c0, r2, hu, hlet, hrun, hout, hr⟩ := supM_some_spec hm
        injection hu with hc hrest
        subst hc hrest hout hr
        have hfr : (r2.dropWhile isAlnumCh).length ≤ fuel := by
          have := (List.dropWhile_suffix isAlnumCh (l := r2)).length_le
          simp only [List.length_cons] at hf
          omega
        have hW := ih _ hfr
        rw [show ([c, '^', '{'] ++ r2.takeWhile isAlnumCh ++ ['}']) ++
              replaceG supM fuel (r2.dropWhile isAlnumCh) =
            c :: '^' :: ((('{' :: r2.takeWhile isAlnumCh) ++ ['}']) ++
              replaceG supM fuel (r2.dropWhile isAlnumCh)) from by simp]
        simp only [anyMatch, Bool.or_eq_false_iff]
        refine ⟨?_, ?_, ?_, ?_⟩
        · rw [supM_none_cases (Or.inr (Or.inr (by
            simp only [List.tail_cons]
            apply takeWhile_nil_of_head
            intro x hx
            simp only [List.cons_append, List.head?_cons, Option.some.injEq] at hx
            rw [← hx]
            decide)))]
          rfl
        · rw [supM_none_first (by decide)]
          rfl
        · rw [supM_none_first (by decide)]
          rfl
        · show anyMatch supM ((r2.takeWhile isAlnumCh ++ ['}']) ++
            replaceG supM fuel (r2.dropWhile isAlnumCh)) = false
          refine anyMatch_supM_chunk ?_ hW
          intro hmem
          exact absurd (List.mem_takeWhile_imp hmem) (by decide)
      | none =>
        simp only [anyMatch, Bool.or_eq_false_iff]
        have hfr : rest.length ≤ fuel := by
          simp only [List.length_cons] at hf
          omega
        refine ⟨?_, ih rest hfr⟩
        rw [supM_preserved_none (fun rt => supM_none_first (by decide))
          supM_head_or fuel c rest hm]
        rfl

/-- The superscript pass creates no subscript match. -/
lemma no_subM_after_supPass :
    ∀ (fuel : Nat) (u : List Char), anyMatch subM u = false →
      anyMatch subM (replaceG supM fuel u) = false := by
  intro fuel
  induction fuel with
  | zero => intro u h; exact h
  | succ fuel ih =>
    intro u h
    cases u with
    | nil => rfl
    | cons c rest =>
      rw [replaceG]
      cases hm : supM (c :: rest) with
      | some pr =>
        obtain ⟨out, r⟩ := pr
        simp only
        obtain ⟨c0, r2, hu, halnum, hrun, hout, hr⟩ := supM_some_spec hm
        injection hu with hc hrest
        subst hc hrest hout hr
        have hsub : anyMatch subM (r2.dropWhile isAlnumCh) = false :=
          anyMatch_false_suffix h ((List.dropWhile_suffix isAlnumCh).trans
            ((List.suffix_cons '^' r2).trans (List.suffix_cons c ('^' :: r2))))
        refine anyMatch_subM_chunk ?_ (ih _ hsub)
        intro hmem
        rcases List.mem_append.mp hmem with h1 | h1
        · rcases List.mem_cons.mp h1 with heq | h2
          · rw [← heq] at halnum
            exact absurd halnum (by decide)
          rcases List.mem_cons.mp h2 with heq | h3
          · exact absurd heq (by decide)
          rcases List.mem_cons.mp h3 with heq | h4
          · exact absurd heq (by decide)
          · exact absurd h4 (List.not_mem_nil _)
        · exact absurd (List.mem_takeWhile_imp h1) (by decide)
      | none =>
        simp only [anyMatch, Bool.or_eq_false_iff] at h ⊢
        refine ⟨?_, ih rest h.2⟩
        have hmn : subM (c :: rest) = none := by
          rcases hx : subM (c :: rest) with _ | v
          · rfl
          · rw [hx] at h
            exact absurd h.1 (by simp)
        rw [subM_preserved_none (fun rt => supM_none_first (by decide))
          supM_head_or fuel c rest hmn]
        rfl

/-- The fraction pass creates no subscript match. -/
lemma no_subM_after_fracPass :
    ∀ (fuel : Nat) (u : List Char), anyMatch subM u = false →
      anyMatch subM (replaceG fracM fuel u) = false := by
  intro fuel
  induction fuel with
  | zero => intro u h; exact h
  | succ fuel ih =>
    intro u h
    cases u with
    | nil => rfl
    | cons c rest =>
      rw [replaceG]
      cases hm : fracM (c :: rest) with
      | some pr =>
        obtain ⟨out, r⟩ := pr
        simp only
        obtain ⟨c0, rest0, hu, halnum, hslash, hden, hout, hr⟩ := fracM_some_spec hm
        injection hu with hc hrest
        subst hc hrest hout hr
        have hsub : anyMatch subM (((rest.dropWhile isAlnumCh).tail).dropWhile isAlnumCh)
            = false := by
          refine anyMatch_false_suffix h ?_
          refine ((List.dropWhile_suffix isAlnumCh).trans ?_).trans
            (List.suffix_cons c rest)
          exact (List.tail_suffix _).trans (List.dropWhile_suffix isAlnumCh)
        refine anyMatch_subM_chunk ?_ (ih _ hsub)
        intro hmem
        rcases List.mem_append.mp hmem with h1 | h1
        · rcases List.mem_append.mp h1 with h2 | h2
          · rcases List.mem_append.mp h2 with h3 | h3
            · simp only [List.mem_cons, List.not_mem_nil, or_false] at h3
              rcases h3 with h | h | h | h | h | h <;> exact absurd h (by decide)
            · rcases List.mem_cons.mp h3 with heq | h4
              · rw [← heq] at halnum
                exact absurd halnum (by decide)
              · exact absurd (List.mem_takeWhile_imp h4) (by decide)
          · simp only [List.mem_cons, List.not_mem_nil, or_false] at h2
            rcases h2 with h | h <;> exact absurd h (by decide)
        · exact absurd (List.mem_takeWhile_imp h1) (by decide)
      | none =>
        simp only [anyMatch, Bool.or_eq_false_iff] at h ⊢
        refine ⟨?_, ih rest h.2⟩
        have hmn : subM (c :: rest) = none := by
          rcases hx : subM (c :: rest) with _ | v
          · rfl
          · rw [hx] at h
            exact absurd h.1 (by simp)
        rw [subM_preserved_none (fun rt => fracM_none_first (by decide))
          fracM_head_or fuel c rest hmn]
        rfl

/-- The fraction pass creates no superscript match. -/
lemma no_supM_after_fracPass :
    ∀ (fuel : Nat) (u : List Char), anyMatch supM u = false →
      anyMatch supM (replaceG fracM fuel u) = false := by
  intro fuel
  induction fuel with
  | zero => intro u h; exact h
  | succ fuel ih =>
    intro u h
    cases u with
    | nil => rfl
    | cons c rest =>
      rw [replaceG]
      cases hm : fracM (c :: rest) with
      | some pr =>
        obtain ⟨out, r⟩ := pr
        simp only
        obtain ⟨c0, rest0, hu, halnum, hslash, hden, hout, hr⟩ := fracM_some_spec hm
        injection hu with hc hrest
        subst hc hrest hout hr
        have hsub : anyMatch supM (((rest.dropWhile isAlnumCh).tail).dropWhile isAlnumCh)
            = false := by
          refine anyMatch_false_suffix h ?_
          refine ((List.dropWhile_suffix isAlnumCh).trans ?_).trans
            (List.suffix_cons c rest)
          exact (List.tail_suffix _).trans (List.dropWhile_suffix isAlnumCh)
        refine anyMatch_supM_chunk ?_ (ih _ hsub)
        intro hmem
        rcases List.mem_append.mp hmem with h1 | h1
        · rcases List.mem_append.mp h1 with h2 | h2
          · rcases List.mem_append.mp h2 with h3 | h3
            · simp only [List.mem_cons, List.not_mem_nil, or_false] at h3
              rcases h3 with h | h | h | h | h | h <;> exact absurd h (by decide)
            · rcases List.mem_cons.mp h3 with heq | h4
              · rw [← heq] at halnum
                exact absurd halnum (by decide)
              · exact absurd (List.mem_takeWhile_imp h4) (by decide)
          · simp only [List.mem_cons, List.not_mem_nil, or_false] at h2
            rcases h2 with h | h <;> exact absurd h (by decide)
        · exact absurd (List.mem_takeWhile_imp h1) (by decide)
      | none =>
        simp only [anyMatch, Bool.or_eq_false_iff] at h ⊢
        refine ⟨?_, ih rest h.2⟩
        have hmn : supM (c :: rest) = none := by
          rcases hx : supM (c :: rest) with _ | v
          · rfl
          · rw [hx] at h
            exact absurd h.1 (by simp)
        rw [supM_preserved_none (fun rt => fracM_none_first (by decide))
          fracM_head_or fuel c rest hmn]
        rfl

/-- While the fraction matcher fails on the leading alphanumeric run (no
slash after it, or an empty denominator), the pass copies the whole run
verbatim and continues at the run's end. -/
lemma replaceG_fracM_run :
    ∀ (u : List Char) (fuel : Nat),
      ((u.dropWhile isAlnumCh).head? = some '/' →
        (u.dropWhile isAlnumCh).tail.takeWhile isAlnumCh = []) →
      replaceG fracM fuel u =
        u.takeWhile isAlnumCh ++
          replaceG fracM (fuel - (u.takeWhile isAlnumCh).length) (u.dropWhile isAlnumCh) := by
  intro u
  induction u with
  | nil => intro fuel _; simp [replaceG_nil]
  | cons a v ih =>
    intro fuel hH
    by_cases ha : isAlnumCh a = true
    · have htk : (a :: v).takeWhile isAlnumCh = a :: v.takeWhile isAlnumCh := by
        rw [List.takeWhile_cons, if_pos ha]
      have hdp : (a :: v).dropWhile isAlnumCh = v.dropWhile isAlnumCh := by
        rw [List.dropWhile_cons, if_pos ha]
      rw [hdp] at hH
      rw [htk, hdp]
      cases fuel with
      | zero =>
        show a :: v = _
        simp only [Nat.zero_sub]
        rw [show replaceG fracM 0 (v.dropWhile isAlnumCh) = v.dropWhile isAlnumCh from rfl]
        rw [List.cons_append, List.takeWhile_append_dropWhile]
      | succ f =>
        have hm : fracM (a :: v) = none := by
          apply fracM_none_cases
          by_cases hsl : (v.dropWhile isAlnumCh).head? = some '/'
          · exact Or.inr (Or.inr (hH hsl))
          · exact Or.inr (Or.inl hsl)
        rw [replaceG, hm, ih f hH]
        simp only [List.cons_append, List.length_cons, Nat.succ_sub_succ]
    · have htk : (a :: v).takeWhile isAlnumCh = [] := by
        rw [List.takeWhile_cons, if_neg (by simp [ha])]
      have hdp : (a :: v).dropWhile isAlnumCh = a :: v := by
        rw [List.dropWhile_cons, if_neg (by simp [ha])]
      rw [htk, hdp]
      simp

lemma dropWhile_takeWhile_nil (p : Char → Bool) (l : List Char) :
    (l.takeWhile p).dropWhile p = [] := by
  induction l with
  | nil => rfl
  | cons a v ih =>
    rw [List.takeWhile_cons]
    split
    next hp => rw [List.dropWhile_cons, if_pos hp, ih]
    next => rfl

/-- A fraction non-match at a position survives the fraction pass itself. -/
lemma fracM_preserved_none :
    ∀ (fuel : Nat) (c : Char) (rest : List Char), fracM (c :: rest) = none →
      fracM (c :: replaceG fracM fuel rest) = none := by
  intro fuel c rest hm
  rcases fracM_none_elim hm with h | h | h
  · exact fracM_none_first h
  · -- no slash at the end of the leading run
    have hH : (rest.dropWhile isAlnumCh).head? = some '/' →
        (rest.dropWhile isAlnumCh).tail.takeWhile isAlnumCh = [] := fun hc => absurd hc h
    rw [replaceG_fracM_run rest fuel hH]
    apply fracM_none_cases
    refine Or.inr (Or.inl ?_)
    rw [List.dropWhile_append]
    rw [if_pos (by rw [dropWhile_takeWhile_nil]; rfl)]
    cases hu : rest.dropWhile isAlnumCh with
    | nil => rw [replaceG_nil]; simp
    | cons b u₃ =>
      have hb : isAlnumCh b = false := head_dropWhile_false (by rw [hu]; rfl)
      have hbs : b ≠ '/' := fun hbs => h (by rw [hu, hbs]; rfl)
      cases hf : fuel - (rest.takeWhile isAlnumCh).length with
      | zero =>
        rw [show replaceG fracM 0 (b :: u₃) = b :: u₃ from rfl]
        rw [List.dropWhile_cons, if_neg (by simp [hb])]
        simp [hbs]
      | succ f₃ =>
        rw [replaceG, fracM_none_first hb]
        rw [List.dropWhile_cons, if_neg (by simp [hb])]
        simp [hbs]
  · -- slash present but empty denominator
    have hH : (rest.dropWhile isAlnumCh).head? = some '/' →
        (rest.dropWhile isAlnumCh).tail.takeWhile isAlnumCh = [] := fun _ => h
    rw [replaceG_fracM_run rest fuel hH]
    apply fracM_none_cases
    rw [List.dropWhile_append]
    rw [if_pos (by rw [dropWhile_takeWhile_nil]; rfl)]
    cases hu : rest.dropWhile isAlnumCh with
    | nil =>
      rw [replaceG_nil]
      exact Or.inr (Or.inl (by simp))
    | cons b u₃ =>
      have hb : isAlnumCh b = false := head_dropWhile_false (by rw [hu]; rfl)
      have hu₃ : u₃.takeWhile isAlnumCh = [] := by
        have := h
        rw [hu] at this
        simpa using this
      refine Or.inr (Or.inr ?_)
      cases hf : fuel - (rest.takeWhile isAlnumCh).length with
      | zero =>
        rw [show replaceG fracM 0 (b :: u₃) = b :: u₃ from rfl]
        rw [List.dropWhile_cons, if_neg (by simp [hb])]
        simpa using hu₃
      | succ f₃ =>
        rw [replaceG, fracM_none_first hb]
        rw [List.dropWhile_cons, if_neg (by simp [hb])]
        simp only [List.tail_cons]
        apply takeWhile_nil_of_head
        intro x hx
        rcases head?_replaceG_or fracM_head_or f₃ u₃ with hh | hh
        · rw [hh] at hx
          exact head_false_of_takeWhile_nil hu₃ x hx
        · rw [hh] at hx
          injection hx with hx
          rw [← hx]
          decide

/-- The output of the fraction pass contains no fraction match. -/
lemma no_fracM_in_fracPass :
    ∀ (fuel : Nat) (s : List Char), s.length ≤ fuel →
      anyMatch fracM (replaceG fracM fuel s) = false := by
  intro fuel
  induction fuel with
  | zero =>
    intro s hf
    rw [List.length_eq_zero.mp (Nat.le_zero.mp hf)]
    rfl
  | succ fuel ih =>
    intro s hf
    cases s with
    | nil => rfl
    | cons c rest =>
      rw [replaceG]
      cases hm : fracM (c :: rest) with
      | some pr =>
        obtain ⟨out, r⟩ := pr
        simp only
        obtain ⟨c0, rest0, hu, halnum, hslash, hden, hout, hr⟩ := fracM_some_spec hm
        injection hu with hc hrest
        subst hc hrest hout hr
        have hfr : (((rest.dropWhile isAlnumCh).tail).dropWhile isAlnumCh).length ≤ fuel := by
          have h1 := (List.dropWhile_suffix isAlnumCh
            (l := (rest.dropWhile isAlnumCh).tail)).length_le
          have h2 := (List.dropWhile_suffix isAlnumCh (l := rest)).length_le
          have h3 := ((List.tail_suffix (rest.dropWhile isAlnumCh)).trans
            (List.dropWhile_suffix isAlnumCh)).length_le
          simp only [List.length_cons] at hf
          omega
        refine anyMatch_fracM_chunk ?_ (ih _ hfr)
        intro hmem
        rcases List.mem_append.mp hmem with h1 | h1
        · rcases List.mem_append.mp h1 with h2 | h2
          · rcases List.mem_append.mp h2 with h3 | h3
            · simp only [List.mem_cons, List.not_mem_nil, or_false] at h3
              rcases h3 with h | h | h | h | h | h <;> exact absurd h (by decide)
            · rcases List.mem_cons.mp h3 with heq | h4
              · rw [← heq] at halnum
                exact absurd halnum (by decide)
              · exact absurd (List.mem_takeWhile_imp h4) (by decide)
          · simp only [List.mem_cons, List.not_mem_nil, or_false] at h2
            rcases h2 with h | h <;> exact absurd h (by decide)
        · exact absurd (List.mem_takeWhile_imp h1) (by decide)
      | none =>
        simp only [anyMatch, Bool.or_eq_false_iff]
        have hfr : rest.length ≤ fuel := by
          simp only [List.length_cons] at hf
          omega
        refine ⟨?_, ih rest hfr⟩
        rw [fracM_preserved_none fuel c rest hm]
        rfl

/-!  ## Case-insensitive Greek-name occurrences survive no pass

Passes 1–3 only insert the non-letter characters `_`, `^`, `{`, `}`, the
backslash and the letters of `frac` (always bracketed by a backslash and a
brace), and they never delete or reorder input letters; an all-letter
pattern that occurs case-insensitively in no suffix of the input (and not
inside `frac`) therefore occurs nowhere in the output. -/

lemma canonN_cases (c : Char) :
    (97 ≤ c.toNat ∧ c.toNat ≤ 122 ∧ canonN c = c.toNat - 32) ∨
    (c.toNat = 0x3C2 ∧ canonN c = 0x3A3) ∨
    (0x3B1 ≤ c.toNat ∧ c.toNat ≤ 0x3C9 ∧ canonN c = c.toNat - 32) ∨
    (c.toNat = 0xB5 ∧ canonN c = 0x39C) ∨
    (¬(97 ≤ c.toNat ∧ c.toNat ≤ 122) ∧ c.toNat ≠ 0x3C2 ∧
      ¬(0x3B1 ≤ c.toNat ∧ c.toNat ≤ 0x3C9) ∧ c.toNat ≠ 0xB5 ∧
      canonN c = c.toNat) := by
  unfold canonN
  split
  next h1 =>
    simp only [Bool.and_eq_true, decide_eq_true_eq] at h1
    exact Or.inl ⟨h1.1, h1.2, rfl⟩
  next h1 =>
    simp only [Bool.and_eq_true, decide_eq_true_eq] at h1
    split
    next h2 => exact Or.inr (Or.inl ⟨h2, rfl⟩)
    next h2 =>
      split
      next h3 =>
        simp only [Bool.and_eq_true, decide_eq_true_eq] at h3
        exact Or.inr (Or.inr (Or.inl ⟨h3.1, h3.2, rfl⟩))
      next h3 =>
        simp only [Bool.and_eq_true, decide_eq_true_eq] at h3
        split
        next h4 => exact Or.inr (Or.inr (Or.inr (Or.inl ⟨h4, rfl⟩)))
        next h4 =>
          exact Or.inr (Or.inr (Or.inr (Or.inr ⟨h1, h2, h3, h4, rfl⟩)))

/-- The canonical codepoint of an ASCII letter is its uppercase form. -/
lemma canonN_letter {x : Char} (h : isAsciiLetter x = true) :
    65 ≤ canonN x ∧ canonN x ≤ 90 := by
  simp only [isAsciiLetter, Bool.or_eq_true, Bool.and_eq_true, decide_eq_true_eq] at h
  rcases canonN_cases x with h1 | h1 | h1 | h1 | h1 <;> omega

/-- Only ASCII letters canonicalize into the uppercase ASCII range. -/
lemma letter_of_canonN {c : Char} (h1 : 65 ≤ canonN c) (h2 : canonN c ≤ 90) :
    isAsciiLetter c = true := by
  simp only [isAsciiLetter, Bool.or_eq_true, Bool.and_eq_true, decide_eq_true_eq]
  rcases canonN_cases c with h | h | h | h | h <;> omega

lemma canonN_non_letter {c : Char} (h : isAsciiLetter c = false) :
    canonN c < 65 ∨ 90 < canonN c := by
  rcases Nat.lt_or_ge (canonN c) 65 with h1 | h1
  · exact Or.inl h1
  · rcases Nat.lt_or_ge 90 (canonN c) with h2 | h2
    · exact Or.inr h2
    · rw [letter_of_canonN h1 h2] at h
      exact absurd h (by simp)

/-- An all-letter pattern cannot start matching at a non-letter character. -/
lemma ciPrefix_false_cons (p : List Char) (hp : p ≠ [])
    (hlet : ∀ x ∈ p, isAsciiLetter x = true) (a : Char)
    (ha : canonN a < 65 ∨ 90 < canonN a) (w : List Char) :
    ciPrefix p (a :: w) = false := by
  cases p with
  | nil => exact absurd rfl hp
  | cons x ps =>
    have hx := canonN_letter (hlet x (List.mem_cons_self x ps))
    have hne : ¬(canonN a = canonN x) := by omega
    simp only [ciPrefix, decide_eq_false hne, Bool.false_and]

lemma ciPrefix_extend : ∀ (p w z : List Char), ciPrefix p w = true →
    ciPrefix p (w ++ z) = true := by
  intro p
  induction p with
  | nil => intro w z _; rfl
  | cons x ps ih =>
    intro w z h
    cases w with
    | nil => exact absurd h (by simp [ciPrefix])
    | cons c cs =>
      simp only [List.cons_append, ciPrefix, Bool.and_eq_true] at h ⊢
      exact ⟨h.1, ih cs z h.2⟩

lemma containsCI_exists {p : List Char} :
    ∀ {u : List Char}, containsCI p u = true →
      ∃ w, w <:+ u ∧ ciPrefix p w = true := by
  intro u
  induction u with
  | nil =>
    intro h
    refine ⟨[], List.suffix_refl _, ?_⟩
    cases p with
    | nil => rfl
    | cons x ps => simp [containsCI] at h
  | cons c rest ih =>
    intro h
    simp only [containsCI, Bool.or_eq_true] at h
    rcases h with h | h
    · exact ⟨c :: rest, List.suffix_refl _, h⟩
    · obtain ⟨w, hw, hp⟩ := ih h
      exact ⟨w, hw.trans (List.suffix_cons c rest), hp⟩

lemma containsCI_false_suffix {p : List Char} {u v : List Char}
    (h : containsCI p u = false) (hv : v <:+ u) : containsCI p v = false := by
  rw [Bool.eq_false_iff]
  intro hc
  obtain ⟨w, hw, hp⟩ := containsCI_exists hc
  have := containsCI_of_ciPrefix_suffix (hw.trans hv) hp
  rw [h] at this
  exact absurd this (by simp)

lemma suffix_append_right {l m z : List Char} (h : l <:+ m) : l ++ z <:+ m ++ z := by
  obtain ⟨t, rfl⟩ := h
  exact ⟨t, (List.append_assoc t l z).symm⟩

/-- A nonempty suffix of a list ending in `x` also ends in `x`. -/
lemma suffix_snoc_elim {w A : List Char} {x : Char} (hw : w <:+ A ++ [x])
    (hne : w ≠ []) : ∃ w', w' <:+ A ∧ w = w' ++ [x] := by
  rcases suffix_append_split hw with h1 | ⟨t', ht1, _, rfl⟩
  · rcases List.suffix_cons_iff.mp h1 with rfl | h2
    · exact ⟨[], List.nil_suffix, rfl⟩
    · exact absurd (List.suffix_nil.mp h2) hne
  · exact ⟨t', ht1, rfl⟩

/-- A case-insensitive match over an append either fits inside the left
part or covers all of it and continues on the right. -/
lemma ciPrefix_append_elim :
    ∀ (p A B : List Char), ciPrefix p (A ++ B) = true →
      ciPrefix p A = true ∨
      ((∀ a ∈ A, ∃ x ∈ p, canonN a = canonN x) ∧
        A.length < p.length ∧ ciPrefix (p.drop A.length) B = true) := by
  intro p A
  induction A generalizing p with
  | nil =>
    intro B h
    cases p with
    | nil => exact Or.inl rfl
    | cons x ps => exact Or.inr ⟨by simp, by simp, h⟩
  | cons a A' ih =>
    intro B h
    cases p with
    | nil => exact Or.inl rfl
    | cons x ps =>
      simp only [List.cons_append, ciPrefix, Bool.and_eq_true, decide_eq_true_eq] at h
      rcases ih ps B h.2 with h1 | ⟨hmem, hlen, hdrop⟩
      · refine Or.inl ?_
        simp only [ciPrefix, Bool.and_eq_true, decide_eq_true_eq]
        exact ⟨h.1, h1⟩
      · refine Or.inr ⟨?_, ?_, ?_⟩
        · intro b hb
          rcases List.mem_cons.mp hb with rfl | hb'
          · exact ⟨x, List.mem_cons_self x ps, h.1⟩
          · obtain ⟨y, hy, hxy⟩ := hmem b hb'
            exact ⟨y, List.mem_cons_of_mem x hy, hxy⟩
        · simp only [List.length_cons]
          omega
        · simp only [List.length_cons, List.drop_succ_cons]
          exact hdrop

/-- If the part after the append starts with a non-letter, an all-letter
match over the append fits inside the left part. -/
lemma ciPrefix_append_barrier {p A : List Char} {b : Char} {B' : List Char}
    (hlet : ∀ x ∈ p, isAsciiLetter x = true)
    (hb : canonN b < 65 ∨ 90 < canonN b)
    (h : ciPrefix p (A ++ (b :: B')) = true) :
    ciPrefix p A = true := by
  rcases ciPrefix_append_elim p A (b :: B') h with h1 | ⟨_, hlen, hdrop⟩
  · exact h1
  · exfalso
    cases hd : p.drop A.length with
    | nil =>
      have hlg := congrArg List.length hd
      rw [List.length_drop] at hlg
      simp only [List.length_nil] at hlg
      omega
    | cons y ps' =>
      rw [hd] at hdrop
      simp only [ciPrefix, Bool.and_eq_true, decide_eq_true_eq] at hdrop
      have hy : y ∈ p := (List.drop_suffix A.length p).subset
        (by rw [hd]; exact List.mem_cons_self y ps')
      have hyb := canonN_letter (hlet y hy)
      obtain ⟨hby, _⟩ := hdrop
      omega

lemma containsCI_append_false {p A B : List Char}
    (hB : containsCI p B = false)
    (hspan : ∀ w, w <:+ A → w ≠ [] → ciPrefix p (w ++ B) = true → False) :
    containsCI p (A ++ B) = false := by
  rw [Bool.eq_false_iff]
  intro hc
  obtain ⟨w, hw, hp⟩ := containsCI_exists hc
  rcases suffix_append_split hw with h1 | ⟨w', hw1, hw2, rfl⟩
  · have := containsCI_of_ciPrefix_suffix h1 hp
    rw [hB] at this
    exact absurd this (by simp)
  · exact hspan w' hw1 hw2 hp

/-- An all-letter pattern matching at the very start of the subscript
pass's output also matches at the start of its input: a replacement begins
with the input character, and its second character is the non-letter `_`. -/
lemma ciPrefix_sub_pull :
    ∀ (fuel : Nat) (u p : List Char), (∀ x ∈ p, isAsciiLetter x = true) →
      ciPrefix p (replaceG subM fuel u) = true → ciPrefix p u = true := by
  intro fuel
  induction fuel with
  | zero => intro u p _ h; exact h
  | succ fuel ih =>
    intro u p hlet h
    cases u with
    | nil =>
      rw [show replaceG subM (fuel + 1) ([] : List Char) = [] from rfl] at h
      exact h
    | cons c rest =>
      rw [replaceG] at h
      cases hm : subM (c :: rest) with
      | some pr =>
        obtain ⟨out, r⟩ := pr
        rw [hm] at h
        simp only at h
        obtain ⟨c0, r2, hx, _, _, hout, hr⟩ := subM_some_spec hm
        injection hx with hc hrestx
        subst hc hrestx hout hr
        simp only [List.cons_append, List.append_assoc, List.singleton_append,
          List.nil_append] at h
        cases p with
        | nil => rfl
        | cons x ps =>
          simp only [ciPrefix, Bool.and_eq_true, decide_eq_true_eq] at h
          cases ps with
          | nil => simp [ciPrefix, h.1]
          | cons y ps' =>
            obtain ⟨_, h2⟩ := h
            rw [ciPrefix_false_cons (y :: ps') (by simp)
              (fun z hz => hlet z (List.mem_cons_of_mem x hz)) '_'
              (Or.inr (by decide)) _] at h2
            exact absurd h2 (by simp)
      | none =>
        rw [hm] at h
        simp only at h
        cases p with
        | nil => rfl
        | cons x ps =>
          simp only [ciPrefix, Bool.and_eq_true, decide_eq_true_eq] at h
          have := ih rest ps (fun z hz => hlet z (List.mem_cons_of_mem x hz)) h.2
          simp [ciPrefix, h.1, this]

/-- The analogue for the superscript pass: the second character of a
replacement is the non-letter `^`. -/
lemma ciPrefix_sup_pull :
    ∀ (fuel : Nat) (u p : List Char), (∀ x ∈ p, isAsciiLetter x = true) →
      ciPrefix p (replaceG supM fuel u) = true → ciPrefix p u = true := by
  intro fuel
  induction fuel with
  | zero => intro u p _ h; exact h
  | succ fuel ih =>
    intro u p hlet h
    cases u with
    | nil =>
      rw [show replaceG supM (fuel + 1) ([] : List Char) = [] from rfl] at h
      exact h
    | cons c rest =>
      rw [replaceG] at h
      cases hm : supM (c :: rest) with
      | some pr =>
        obtain ⟨out, r⟩ := pr
        rw [hm] at h
        simp only at h
        obtain ⟨c0, r2, hx, _, _, hout, hr⟩ := supM_some_spec hm
        injection hx with hc hrestx
        subst hc hrestx hout hr
        simp only [List.cons_append, List.append_assoc, List.singleton_append,
          List.nil_append] at h
        cases p with
        | nil => rfl
        | cons x ps =>
          simp only [ciPrefix, Bool.and_eq_true, decide_eq_true_eq] at h
          cases ps with
          | nil => simp [ciPrefix, h.1]
          | cons y ps' =>
            obtain ⟨_, h2⟩ := h
            rw [ciPrefix_false_cons (y :: ps') (by simp)
              (fun z hz => hlet z (List.mem_cons_of_mem x hz)) '^'
              (Or.inr (by decide)) _] at h2
            exact absurd h2 (by simp)
      | none =>
        rw [hm] at h
        simp only at h
        cases p with
        | nil => rfl
        | cons x ps =>
          simp only [ciPrefix, Bool.and_eq_true, decide_eq_true_eq] at h
          have := ih rest ps (fun z hz => hlet z (List.mem_cons_of_mem x hz)) h.2
          simp [ciPrefix, h.1, this]

/-- The analogue for the fraction pass: a replacement begins with the
non-letter backslash. -/
lemma ciPrefix_frac_pull :
    ∀ (fuel : Nat) (u p : List Char), (∀ x ∈ p, isAsciiLetter x = true) →
      ciPrefix p (replaceG fracM fuel u) = true → ciPrefix p u = true := by
  intro fuel
  induction fuel with
  | zero => intro u p _ h; exact h
  | succ fuel ih =>
    intro u p hlet h
    cases u with
    | nil =>
      rw [show replaceG fracM (fuel + 1) ([] : List Char) = [] from rfl] at h
      exact h
    | cons c rest =>
      rw [replaceG] at h
      cases hm : fracM (c :: rest) with
      | some pr =>
        obtain ⟨out, r⟩ := pr
        rw [hm] at h
        simp only at h
        obtain ⟨c0, rest0, hx, _, _, _, hout, hr⟩ := fracM_some_spec hm
        injection hx with hc hrestx
        subst hc hrestx hout hr
        simp only [List.cons_append, List.append_assoc, List.singleton_append,
          List.nil_append] at h
        cases p with
        | nil => rfl
        | cons x ps =>
          simp only [ciPrefix, Bool.and_eq_true, decide_eq_true_eq] at h
          have hxb := canonN_letter (hlet x (List.mem_cons_self x ps))
          have h92 : canonN '\\' = 92 := by decide
          obtain ⟨h1, _⟩ := h
          rw [h92] at h1
          omega
      | none =>
        rw [hm] at h
        simp only at h
        cases p with
        | nil => rfl
        | cons x ps =>
          simp only [ciPrefix, Bool.and_eq_true, decide_eq_true_eq] at h
          have := ih rest ps (fun z hz => hlet z (List.mem_cons_of_mem x hz)) h.2
          simp [ciPrefix, h.1, this]

/-- The subscript pass cannot create a case-insensitive occurrence of an
all-letter pattern of length at least two. -/
lemma containsCI_sub_preserve :
    ∀ (fuel : Nat) (u p : List Char), (∀ x ∈ p, isAsciiLetter x = true) →
      2 ≤ p.length → containsCI p u = false →
      containsCI p (replaceG subM fuel u) = false := by
  intro fuel
  induction fuel with
  | zero => intro u p _ _ h; exact h
  | succ fuel ih =>
    intro u p hlet hlen hu
    have hpne : p ≠ [] := by
      intro h0
      rw [h0] at hlen
      simp at hlen
    cases u with
    | nil =>
      rw [show replaceG subM (fuel + 1) ([] : List Char) = [] from rfl]
      exact hu
    | cons c rest =>
      have hu' := hu
      simp only [containsCI, Bool.or_eq_false_iff] at hu'
      obtain ⟨hcp, hrest⟩ := hu'
      rw [replaceG]
      cases hm : subM (c :: rest) with
      | some pr =>
        obtain ⟨out, r⟩ := pr
        simp only
        obtain ⟨c0, r2, hx, _, _, hout, hr⟩ := subM_some_spec hm
        injection hx with hc hrestx
        subst hc hrestx hout hr
        have hT : containsCI p (replaceG subM fuel (r2.dropWhile isAlnumCh)) = false :=
          ih _ p hlet hlen (containsCI_false_suffix hrest
            ((List.dropWhile_suffix isAlnumCh).trans (List.suffix_cons '_' r2)))
        apply containsCI_append_false hT
        intro w hwsuf hwne hci
        obtain ⟨w', hw'A, rfl⟩ := suffix_snoc_elim hwsuf hwne
        rw [List.append_assoc, List.singleton_append] at hci
        have hciw : ciPrefix p w' = true :=
          ciPrefix_append_barrier hlet (Or.inr (by decide)) hci
        rcases suffix_append_split hw'A with hwr | ⟨t', ht'suf, ht'ne, rfl⟩
        · have h1 : w' ++ r2.dropWhile isAlnumCh <:+ r2 := by
            have h2 := suffix_append_right (z := r2.dropWhile isAlnumCh) hwr
            rwa [List.takeWhile_append_dropWhile] at h2
          have h3 := containsCI_of_ciPrefix_suffix
            (h1.trans (List.suffix_cons '_' r2)) (ciPrefix_extend p w' _ hciw)
          rw [hrest] at h3
          exact absurd h3 (by simp)
        · rcases List.suffix_cons_iff.mp ht'suf with rfl | h2
          · simp only [List.cons_append, List.nil_append] at hciw
            cases p with
            | nil => exact hpne rfl
            | cons x ps =>
              simp only [ciPrefix, Bool.and_eq_true, decide_eq_true_eq] at hciw
              cases ps with
              | nil =>
                simp only [List.length_cons, List.length_nil] at hlen
                omega
              | cons y ps' =>
                obtain ⟨_, hciw2⟩ := hciw
                rw [ciPrefix_false_cons (y :: ps') (by simp)
                  (fun z hz => hlet z (List.mem_cons_of_mem x hz)) '_'
                  (Or.inr (by decide)) _] at hciw2
                exact absurd hciw2 (by simp)
          · rcases List.suffix_cons_iff.mp h2 with rfl | h3
            · simp only [List.cons_append, List.nil_append] at hciw
              rw [ciPrefix_false_cons p hpne hlet '_' (Or.inr (by decide)) _] at hciw
              exact absurd hciw (by simp)
            · rcases List.suffix_cons_iff.mp h3 with rfl | h4
              · simp only [List.cons_append, List.nil_append] at hciw
                rw [ciPrefix_false_cons p hpne hlet '{' (Or.inr (by decide)) _] at hciw
                exact absurd hciw (by simp)
              · exact ht'ne (List.suffix_nil.mp h4)
      | none =>
        simp only
        simp only [containsCI, Bool.or_eq_false_iff]
        refine ⟨?_, ih rest p hlet hlen hrest⟩
        rw [Bool.eq_false_iff]
        intro hpre
        have hstep : ciPrefix p (replaceG subM (fuel + 1) (c :: rest)) = true := by
          rw [replaceG, hm]
          exact hpre
        have hpull := ciPrefix_sub_pull (fuel + 1) (c :: rest) p hlet hstep
        rw [hcp] at hpull
        exact absurd hpull (by simp)

/-- The superscript pass cannot create a case-insensitive occurrence of an
all-letter pattern of length at least two. -/
lemma containsCI_sup_preserve :
    ∀ (fuel : Nat) (u p : List Char), (∀ x ∈ p, isAsciiLetter x = true) →
      2 ≤ p.length → containsCI p u = false →
      containsCI p (replaceG supM fuel u) = false := by
  intro fuel
  induction fuel with
  | zero => intro u p _ _ h; exact h
  | succ fuel ih =>
    intro u p hlet hlen hu
    have hpne : p ≠ [] := by
      intro h0
      rw [h0] at hlen
      simp at hlen
    cases u with
    | nil =>
      rw [show replaceG supM (fuel + 1) ([] : List Char) = [] from rfl]
      exact hu
    | cons c rest =>
      have hu' := hu
      simp only [containsCI, Bool.or_eq_false_iff] at hu'
      obtain ⟨hcp, hrest⟩ := hu'
      rw [replaceG]
      cases hm : supM (c :: rest) with
      | some pr =>
        obtain ⟨out, r⟩ := pr
        simp only
        obtain ⟨c0, r2, hx, _, _, hout, hr⟩ := supM_some_spec hm
        injection hx with hc hrestx
        subst hc hrestx hout hr
        have hT : containsCI p (replaceG supM fuel (r2.dropWhile isAlnumCh)) = false :=
          ih _ p hlet hlen (containsCI_false_suffix hrest
            ((List.dropWhile_suffix isAlnumCh).trans (List.suffix_cons '^' r2)))
        apply containsCI_append_false hT
        intro w hwsuf hwne hci
        obtain ⟨w', hw'A, rfl⟩ := suffix_snoc_elim hwsuf hwne
        rw [List.append_assoc, List.singleton_append] at hci
        have hciw : ciPrefix p w' = true :=
          ciPrefix_append_barrier hlet (Or.inr (by decide)) hci
        rcases suffix_append_split hw'A with hwr | ⟨t', ht'suf, ht'ne, rfl⟩
        · have h1 : w' ++ r2.dropWhile isAlnumCh <:+ r2 := by
            have h2 := suffix_append_right (z := r2.dropWhile isAlnumCh) hwr
            rwa [List.takeWhile_append_dropWhile] at h2
          have h3 := containsCI_of_ciPrefix_suffix
            (h1.trans (List.suffix_cons '^' r2)) (ciPrefix_extend p w' _ hciw)
          rw [hrest] at h3
          exact absurd h3 (by simp)
        · rcases List.suffix_cons_iff.mp ht'suf with rfl | h2
          · simp only [List.cons_append, List.nil_append] at hciw
            cases p with
            | nil => exact hpne rfl
            | cons x ps =>
              simp only [ciPrefix, Bool.and_eq_true, decide_eq_true_eq] at hciw
              cases ps with
              | nil =>
                simp only [List.length_cons, List.length_nil] at hlen
                omega
              | cons y ps' =>
                obtain ⟨_, hciw2⟩ := hciw
                rw [ciPrefix_false_cons (y :: ps') (by simp)
                  (fun z hz => hlet z (List.mem_cons_of_mem x hz)) '^'
                  (Or.inr (by decide)) _] at hciw2
                exact absurd hciw2 (by simp)
          · rcases List.suffix_cons_iff.mp h2 with rfl | h3
            · simp only [List.cons_append, List.nil_append] at hciw
              rw [ciPrefix_false_cons p hpne hlet '^' (Or.inr (by decide)) _] at hciw
              exact absurd hciw (by simp)
            · rcases List.suffix_cons_iff.mp h3 with rfl | h4
              · simp only [List.cons_append, List.nil_append] at hciw
                rw [ciPrefix_false_cons p hpne hlet '{' (Or.inr (by decide)) _] at hciw
                exact absurd hciw (by simp)
              · exact ht'ne (List.suffix_nil.mp h4)
      | none =>
        simp only
        simp only [containsCI, Bool.or_eq_false_iff]
        refine ⟨?_, ih rest p hlet hlen hrest⟩
        rw [Bool.eq_false_iff]
        intro hpre
        have hstep : ciPrefix p (replaceG supM (fuel + 1) (c :: rest)) = true := by
          rw [replaceG, hm]
          exact hpre
        have hpull := ciPrefix_sup_pull (fuel + 1) (c :: rest) p hlet hstep
        rw [hcp] at hpull
        exact absurd hpull (by simp)

/-- The fraction pass cannot create a case-insensitive occurrence of an
all-letter pattern of length at least two that does not occur in `frac`. -/
lemma containsCI_frac_preserve :
    ∀ (fuel : Nat) (u p : List Char), (∀ x ∈ p, isAsciiLetter x = true) →
      2 ≤ p.length → containsCI p ['f', 'r', 'a', 'c'] = false →
      containsCI p u = false →
      containsCI p (replaceG fracM fuel u) = false := by
  intro fuel
  induction fuel with
  | zero => intro u p _ _ _ h; exact h
  | succ fuel ih =>
    intro u p hlet hlen hfr hu
    have hpne : p ≠ [] := by
      intro h0
      rw [h0] at hlen
      simp at hlen
    cases u with
    | nil =>
      rw [show replaceG fracM (fuel + 1) ([] : List Char) = [] from rfl]
      exact hu
    | cons c rest =>
      have hu' := hu
      simp only [containsCI, Bool.or_eq_false_iff] at hu'
      obtain ⟨hcp, hrest⟩ := hu'
      rw [replaceG]
      cases hm : fracM (c :: rest) with
      | some pr =>
        obtain ⟨out, r⟩ := pr
        simp only
        obtain ⟨c0, rest0, hx, _, _, _, hout, hr⟩ := fracM_some_spec hm
        injection hx with hc hrestx
        subst hc hrestx hout hr
        have hT : containsCI p (replaceG fracM fuel
            (((rest.dropWhile isAlnumCh).tail).dropWhile isAlnumCh)) = false :=
          ih _ p hlet hlen hfr (containsCI_false_suffix hrest
            ((List.dropWhile_suffix isAlnumCh).trans
              ((List.tail_suffix _).trans (List.dropWhile_suffix isAlnumCh))))
        apply containsCI_append_false hT
        intro w hwsuf hwne hci
        obtain ⟨w', hw'A, rfl⟩ := suffix_snoc_elim hwsuf hwne
        rw [List.append_assoc, List.singleton_append] at hci
        have hciw : ciPrefix p w' = true :=
          ciPrefix_append_barrier hlet (Or.inr (by decide)) hci
        rcases suffix_append_split hw'A with hwden | ⟨t', ht'suf, ht'ne, rfl⟩
        · have h1 : w' ++ ((rest.dropWhile isAlnumCh).tail).dropWhile isAlnumCh <:+
              (rest.dropWhile isAlnumCh).tail := by
            have h2 := suffix_append_right
              (z := ((rest.dropWhile isAlnumCh).tail).dropWhile isAlnumCh) hwden
            rwa [List.takeWhile_append_dropWhile] at h2
          have h3 := containsCI_of_ciPrefix_suffix
            (h1.trans ((List.tail_suffix _).trans (List.dropWhile_suffix isAlnumCh)))
            (ciPrefix_extend p w' _ hciw)
          rw [hrest] at h3
          exact absurd h3 (by simp)
        · rcases suffix_append_split ht'suf with htL3 | ⟨t'', ht''suf, ht''ne, rfl⟩
          · rcases List.suffix_cons_iff.mp htL3 with rfl | hA
            · simp only [List.cons_append, List.nil_append] at hciw
              rw [ciPrefix_false_cons p hpne hlet '}' (Or.inr (by decide)) _] at hciw
              exact absurd hciw (by simp)
            · rcases List.suffix_cons_iff.mp hA with rfl | hB
              · simp only [List.cons_append, List.nil_append] at hciw
                rw [ciPrefix_false_cons p hpne hlet '{' (Or.inr (by decide)) _] at hciw
                exact absurd hciw (by simp)
              · exact ht'ne (List.suffix_nil.mp hB)
          · rw [List.append_assoc] at hciw
            simp only [List.cons_append, List.nil_append] at hciw
            have hciw2 : ciPrefix p t'' = true :=
              ciPrefix_append_barrier hlet (Or.inr (by decide)) hciw
            rcases suffix_append_split ht''suf with htL2 | ⟨t₃, ht₃suf, ht₃ne, rfl⟩
            · have h1 : t'' ++ rest.dropWhile isAlnumCh <:+ c :: rest := by
                have h2 := suffix_append_right (z := rest.dropWhile isAlnumCh) htL2
                rw [show (c :: rest.takeWhile isAlnumCh) ++ rest.dropWhile isAlnumCh =
                  c :: rest from by
                    rw [List.cons_append, List.takeWhile_append_dropWhile]] at h2
                exact h2
              have h3 := containsCI_of_ciPrefix_suffix h1
                (ciPrefix_extend p t'' _ hciw2)
              rw [hu] at h3
              exact absurd h3 (by simp)
            · rw [show (['\\', 'f', 'r', 'a', 'c', '{'] : List Char) =
                ['\\', 'f', 'r', 'a', 'c'] ++ ['{'] from rfl] at ht₃suf
              obtain ⟨t₄, ht₄suf, rfl⟩ := suffix_snoc_elim ht₃suf ht₃ne
              rw [List.append_assoc] at hciw2
              simp only [List.cons_append, List.nil_append] at hciw2
              have hciw3 : ciPrefix p t₄ = true :=
                ciPrefix_append_barrier hlet (Or.inr (by decide)) hciw2
              rcases List.suffix_cons_iff.mp ht₄suf with rfl | hsuf
              · cases p with
                | nil => exact hpne rfl
                | cons x ps =>
                  simp only [ciPrefix, Bool.and_eq_true, decide_eq_true_eq] at hciw3
                  have hxb := canonN_letter (hlet x (List.mem_cons_self x ps))
                  have h92 : canonN '\\' = 92 := by decide
                  obtain ⟨hh, _⟩ := hciw3
                  rw [h92] at hh
                  omega
              · have h3 := containsCI_of_ciPrefix_suffix hsuf hciw3
                rw [hfr] at h3
                exact absurd h3 (by simp)
      | none =>
        simp only
        simp only [containsCI, Bool.or_eq_false_iff]
        refine ⟨?_, ih rest p hlet hlen hfr hrest⟩
        rw [Bool.eq_false_iff]
        intro hpre
        have hstep : ciPrefix p (replaceG fracM (fuel + 1) (c :: rest)) = true := by
          rw [replaceG, hm]
          exact hpre
        have hpull := ciPrefix_frac_pull (fuel + 1) (c :: rest) p hlet hstep
        rw [hcp] at hpull
        exact absurd hpull (by simp)

/-- Every character of the pass-1–3 output is an input character or one of
the inserted ASCII characters. -/
lemma mem_passes123 {s : List Char} {x : Char}
    (hx : x ∈ fracPass (supPass (subPass s))) :
    x ∈ s ∨ x ∈ ['\\', 'f', 'r', 'a', 'c', '{', '}'] := by
  unfold fracPass supPass subPass applyG at hx
  rcases mem_replaceG fracM_chars _ _ x hx with h1 | h1
  · rcases mem_replaceG supM_chars _ _ x h1 with h2 | h2
    · rcases mem_replaceG subM_chars _ _ x h2 with h3 | h3
      · exact Or.inl h3
      · right
        simp only [List.mem_cons, List.not_mem_nil, or_false] at h3 ⊢
        tauto
    · right
      simp only [List.mem_cons, List.not_mem_nil, or_false] at h2 ⊢
      tauto
  · exact Or.inr h1

/-- On a Greek-free input the pass-1–3 output is still Greek-free: no name
occurs case-insensitively and no character canonicalizes to a glyph. -/
lemma greek_conditions_processed (s : List Char)
    (hname : ∀ e ∈ greekLetters, containsCI e.1 s = false)
    (hglyph : ∀ e ∈ greekLetters, ∀ c ∈ s, canonN c ≠ canonN e.2) :
    (∀ e ∈ greekLetters, containsCI e.1 (fracPass (supPass (subPass s))) = false) ∧
    (∀ e ∈ greekLetters, ∀ c ∈ fracPass (supPass (subPass s)),
      canonN c ≠ canonN e.2) := by
  constructor
  · intro e he
    have hall : (∀ x ∈ e.1, isAsciiLetter x = true) ∧ 2 ≤ e.1.length ∧
        containsCI e.1 ['f', 'r', 'a', 'c'] = false := by
      revert he; revert e; decide
    obtain ⟨hlet, hlen, hfr⟩ := hall
    unfold fracPass supPass subPass applyG
    apply containsCI_frac_preserve _ _ _ hlet hlen hfr
    apply containsCI_sup_preserve _ _ _ hlet hlen
    apply containsCI_sub_preserve _ _ _ hlet hlen
    exact hname e he
  · intro e he c hc
    rcases mem_passes123 hc with h1 | h1
    · exact hglyph e he c h1
    · have hins : ∀ e ∈ greekLetters,
          ∀ c ∈ (['\\', 'f', 'r', 'a', 'c', '{', '}'] : List Char),
            canonN c ≠ canonN e.2 := by decide
      exact hins e he c h1

/-- The pass-1–3 output contains no match of any of the three regexes. -/
lemma no_matches_processed (s : List Char) :
    anyMatch subM (fracPass (supPass (subPass s))) = false ∧
    anyMatch supM (fracPass (supPass (subPass s))) = false ∧
    anyMatch fracM (fracPass (supPass (subPass s))) = false := by
  unfold fracPass supPass subPass applyG
  refine ⟨?_, ?_, ?_⟩
  · apply no_subM_after_fracPass
    apply no_subM_after_supPass
    exact no_subM_in_subPass s.length s (le_refl _)
  · apply no_supM_after_fracPass
    exact no_supM_in_supPass _ _ (le_refl _)
  · exact no_fracM_in_fracPass _ _ (le_refl _)

/-- Claim C5: `rewriteToLatex` is idempotent on trigger-free inputs.  For
every input with no Greek letter name (as a case-insensitive substring),
no Greek glyph (up to the case-insensitive matching of the glyph regexes)
and no `∇` (the only equation-block trigger an input outside the Greek
alphabet can supply, since `μν`, `Λ` and `Ψ` are Greek glyphs), applying
the rewriter twice gives the same result as applying it once: the second
application of the subscript, superscript and fraction passes is a no-op
on the already-processed output, the Greek pass finds nothing, and no
equation guard fires. -/
theorem C5_idempotent_on_trigger_free (s : List Char)
    (hname : ∀ e ∈ greekLetters, containsCI e.1 s = false)
    (hglyph : ∀ e ∈ greekLetters, ∀ c ∈ s, canonN c ≠ canonN e.2)
    (hnabla : '∇' ∉ s) :
    processToLatex (processToLatex s) = processToLatex s := by
  obtain ⟨hn_t, hg_t⟩ := greek_conditions_processed s hname hglyph
  obtain ⟨hsub, hsup, hfrac⟩ := no_matches_processed s
  have hcore : corePasses s = fracPass (supPass (subPass s)) := by
    unfold corePasses
    exact greekPass_id hn_t hg_t
  have hnab_t : '∇' ∉ fracPass (supPass (subPass s)) := by
    intro hmem
    rcases mem_passes123 hmem with h1 | h1
    · exact hnabla h1
    · simp at h1
  have hmax_t : maxGuard (fracPass (supPass (subPass s))) = false := by
    unfold maxGuard
    rw [contains_eq_false_of_not_mem hnab_t]
    rfl
  have hfix : processToLatex s = fracPass (supPass (subPass s)) := by
    rw [processToLatex_eq_maxStep, hcore]
    unfold maxStep
    rw [hmax_t]
    simp
  have h1 : subPass (fracPass (supPass (subPass s))) = fracPass (supPass (subPass s)) :=
    replaceG_id _ _ hsub
  have h2 : supPass (fracPass (supPass (subPass s))) = fracPass (supPass (subPass s)) :=
    replaceG_id _ _ hsup
  have h3 : fracPass (fracPass (supPass (subPass s))) = fracPass (supPass (subPass s)) :=
    replaceG_id _ _ hfrac
  have hcore_t : corePasses (fracPass (supPass (subPass s))) =
      fracPass (supPass (subPass s)) := by
    unfold corePasses
    rw [h1, h2, h3]
    exact greekPass_id hn_t hg_t
  rw [hfix, processToLatex_eq_maxStep, hcore_t]
  unfold maxStep
  rw [hmax_t]
  simp

/-- Witness for C5: `"x_1 y^2 a/b"` satisfies the trigger-free hypotheses,
and a second application of the rewriter leaves its output unchanged. -/
theorem C5_idempotent_on_trigger_free_witness :
    processToLatex (processToLatex "x_1 y^2 a/b".data) =
      processToLatex "x_1 y^2 a/b".data :=
  C5_idempotent_on_trigger_free "x_1 y^2 a/b".data (by decide) (by decide) (by decide)

end MathFmt
